import Mathlib

/-!
Verification development for the dependency-resolution subsystem of the
pastemax repository: the import parser (`src/utils/importParser.ts`), the
path resolver (`src/utils/pathResolver.ts`) and the dependency graph walker
(`getDependencyFiles`).  Strings are embedded as `List Char`; the JavaScript
regular expressions are embedded as deterministic matchers whose equivalence
with the backtracking semantics of each concrete pattern is argued in the
comment next to each matcher (all quantified subpatterns of those regexes
have follow sets disjoint from their bodies, so maximal munch agrees with
greedy backtracking).
-/

/-- Embedded string type: JavaScript strings are modelled as lists of characters. -/
abbrev Str := List Char

/-- JavaScript `\s` (whitespace class), restricted to the ASCII whitespace
characters that can occur in the embedded sources. -/
def isSpaceChar (c : Char) : Bool :=
  c = ' ' || c = '\t' || c = '\n' || c = '\r' || c = '\x0b' || c = '\x0c'

/-- JavaScript `\w`: ASCII letters, digits and underscore. -/
def isWordChar (c : Char) : Bool :=
  c.isAlpha || c.isDigit || c = '_'

/-- The two quote characters recognized by the import regexes (`['"]`). -/
def isQuote (c : Char) : Bool :=
  c = '\'' || c = '"'

/-- JavaScript `String.prototype.endsWith` on embedded strings. -/
def endsWithL (p suffixStr : Str) : Bool :=
  decide (p.drop (p.length - suffixStr.length) = suffixStr)

/-- JavaScript `String.prototype.startsWith` on embedded strings. -/
def startsWithL (p s : Str) : Bool :=
  s.isPrefixOf p

/-- JavaScript `String.prototype.includes` (substring containment). -/
def hasSubstr (needle hay : Str) : Bool :=
  match hay with
  | [] => needle.isEmpty
  | _ :: t => needle.isPrefixOf hay || hasSubstr needle t

/-- JavaScript `String.prototype.split` with a single-character separator.
`splitOnChar '.' "a.b" = ["a","b"]`, `splitOnChar '.' "" = [""]`. -/
def splitOnChar (sep : Char) : Str → List Str
  | [] => [[]]
  | c :: cs =>
    let r := splitOnChar sep cs
    if c = sep then [] :: r
    else
      match r with
      | h :: t => (c :: h) :: t
      | [] => [[c]]

/-- JavaScript `String.prototype.toLowerCase` on embedded strings. -/
def lowerStr (p : Str) : Str := p.map Char.toLower

/-- JavaScript `.replace(/\\/g, '/')`: backslashes become forward slashes. -/
def toForward (p : Str) : Str :=
  p.map (fun c => if c = '\\' then '/' else c)

/-- JavaScript `String.prototype.trim` (both ends, whitespace). -/
def trimL (p : Str) : Str :=
  ((p.dropWhile isSpaceChar).reverse.dropWhile isSpaceChar).reverse

/-- Remove the last `n` characters of a string (used for anchored-suffix
regex replacement such as `.replace(/\.py$/, '')`). -/
def dropLastN (n : Nat) (p : Str) : Str :=
  p.take (p.length - n)

/-! ## pathUtils (`src/utils/pathUtils.ts`)

The file `pathUtils.ts` itself is not part of the provided sources (only its
callers are), so the four helpers below are modelled from the spec. -/

/-- Modelled from the spec: `pathUtils.normalizePath` — "absolute-path
normalization to forward slashes" (§6); missing source `src/utils/pathUtils.ts`. -/
def normalizePath (p : Str) : Str := toForward p

/-- Modelled from the spec: `pathUtils.dirname` — "directory-of-path" (§6);
missing source `src/utils/pathUtils.ts`.  Drops the final `/`-separated
segment; a path with no separator has directory `"."`. -/
def dirname (p : Str) : Str :=
  let parts := splitOnChar '/' p
  if parts.length ≤ 1 then (".").toList
  else List.intercalate (("/").toList) (parts.dropLast)

/-- Modelled from the spec: `pathUtils.join` — path join (§6); missing source
`src/utils/pathUtils.ts`.  Concatenates with a single separator. -/
def joinPath (a b : Str) : Str :=
  match b with
  | '/' :: _ => a ++ b
  | _ => a ++ ('/' :: b)

/-- One step of relative-path resolution: apply a segment to a stack of
directory segments (`.` and empty segments are skipped, `..` pops). -/
def applySegment (acc : List Str) (seg : Str) : List Str :=
  if seg = (".").toList ∨ seg = ([] : Str) then acc
  else if seg = ("..").toList then acc.dropLast
  else acc ++ [seg]

/-- Modelled from the spec: `pathUtils.resolvePath` — "relative-resolve" (§6);
missing source `src/utils/pathUtils.ts`.  Resolves `rel` against the base
directory `base`, honouring `.` and `..` segments, producing a forward-slash
path. -/
def resolvePath (base rel : Str) : Str :=
  List.intercalate (("/").toList)
    ((splitOnChar '/' rel).foldl applySegment (splitOnChar '/' base))

/-! ## Data model (`src/types/FileTypes.ts`, fields read by this subsystem) -/

/-- One file known to the tool.  The source interface `FileData` carries
further UI flags (`isBinary`, `isSkipped`, sizes); the dependency subsystem
reads only `name`, `path` and `content`, so only those are embedded. -/
structure FileData where
  name : Str
  path : Str
  content : Str
deriving Repr, DecidableEq

/-! ## Import parser (`src/utils/importParser.ts`) -/

/-- The `type` field of `ImportInfo` (source values `'import' | 'require' |
'from' | 'dynamic' | 'css_import'`). -/
inductive ImportType where
  | importTy
  | requireTy
  | fromTy
  | dynamicTy
  | cssImportTy
deriving Repr, DecidableEq

/-- One textual import found in a file (source interface `ImportInfo`). -/
structure ImportInfo where
  type : ImportType
  path : Str
  originalText : Str
  startLine : Nat
  startColumn : Nat
  endLine : Nat
  endColumn : Nat
deriving Repr, DecidableEq

/-- Match a literal at the head of the input; returns the rest. -/
def litM : Str → Str → Option Str
  | [], s => some s
  | _ :: _, [] => none
  | l :: ls, c :: cs => if c = l then litM ls cs else none

/-- Regex `\s+`: at least one whitespace character, maximal munch.  In every
embedded pattern the character after a `\s+` is never itself whitespace, so
maximal munch agrees with greedy backtracking. -/
def dropSpaces1 (s : Str) : Option Str :=
  let sp := s.takeWhile isSpaceChar
  if sp.isEmpty then none else some (s.drop sp.length)

/-- Regex `\w+`: at least one word character, maximal munch (in every embedded
pattern the character after a `\w+` is never a word character). -/
def wordPlus (s : Str) : Option Str :=
  let w := s.takeWhile isWordChar
  if w.isEmpty then none else some (s.drop w.length)

/-- Regex `['"]([^'"]+)['"]`: quote, nonempty run of non-quotes (the capture),
quote (the opening and closing quotes need not agree, exactly as in the
source pattern).  Returns the capture and the rest. -/
def matchQuoted (s : Str) : Option (Str × Str) :=
  match s with
  | c :: rest =>
    if isQuote c then
      let cap := rest.takeWhile (fun d => !(isQuote d))
      if cap.isEmpty then none
      else
        match rest.drop cap.length with
        | d :: rest3 => if isQuote d then some (cap, rest3) else none
        | [] => none
    else none
  | [] => none

/-- Regex `{[^}]*}` (brace import clause). -/
def matchBraceGroup (s : Str) : Option Str :=
  match s with
  | c :: rest =>
    if c = '{' then
      let body := rest.takeWhile (fun d => d ≠ '}')
      match rest.drop body.length with
      | d :: r => if d = '}' then some r else none
      | [] => none
    else none
  | [] => none

/-- One iteration of the regex group `(?:\s*,\s*{[^}]*})*`. -/
def matchCommaBrace (s : Str) : Option Str :=
  match s.dropWhile isSpaceChar with
  | c :: r => if c = ',' then matchBraceGroup (r.dropWhile isSpaceChar) else none
  | [] => none

/-- Greedy Kleene star of a matcher.  The gas argument only serves
termination; every embedded step consumes at least one character, and the
callers pass gas exceeding the input length.  Greedy iteration without
backtracking is faithful here because each embedded iteration starts with a
character on which the regex part following the star fails. -/
def starIter (step : Str → Option Str) : Nat → Str → Str
  | 0, s => s
  | gas + 1, s =>
    match step s with
    | some r => if r.length < s.length then starIter step gas r else s
    | none => s

/-- The import-clause alternation
`(?:{[^}]*}|\*\s+as\s+\w+|\w+(?:\s*,\s*{[^}]*})*|\w+)` of the static-import
regex.  The fourth alternative is the third with zero group iterations, so it
is subsumed; the three remaining alternatives start with distinct characters
(`{`, `*`, word), so ordered choice without backtracking is faithful. -/
def matchImportClause (s : Str) : Option Str :=
  match matchBraceGroup s with
  | some r => some r
  | none =>
    match s with
    | [] => none
    | c :: r =>
      if c = '*' then do
        let r1 ← dropSpaces1 r
        let r2 ← litM (("as").toList) r1
        let r3 ← dropSpaces1 r2
        wordPlus r3
      else do
        let r1 ← wordPlus s
        pure (starIter matchCommaBrace (r1.length + 1) r1)

/-- The static-import regex
`import\s+(?:{[^}]*}|\*\s+as\s+\w+|\w+(?:\s*,\s*{[^}]*})*|\w+)\s+from\s+['"]([^'"]+)['"]`
anchored at the start of `s`; returns the captured module specifier and the
rest of the input. -/
def matchStaticImport (s : Str) : Option (Str × Str) := do
  let r1 ← litM (("import").toList) s
  let r2 ← dropSpaces1 r1
  let r3 ← matchImportClause r2
  let r4 ← dropSpaces1 r3
  let r5 ← litM (("from").toList) r4
  let r6 ← dropSpaces1 r5
  matchQuoted r6

/-- The dynamic-import regex `import\s*\(\s*['"]([^'"]+)['"]\s*\)` anchored at
the start of `s`. -/
def matchDynamicImport (s : Str) : Option (Str × Str) := do
  let r1 ← litM (("import").toList) s
  let r2 ← litM (("(").toList) (r1.dropWhile isSpaceChar)
  let (cap, r3) ← matchQuoted (r2.dropWhile isSpaceChar)
  let r4 ← litM ((")").toList) (r3.dropWhile isSpaceChar)
  pure (cap, r4)

/-- The require regex `require\s*\(\s*['"]([^'"]+)['"]\s*\)` anchored at the
start of `s`. -/
def matchRequire (s : Str) : Option (Str × Str) := do
  let r1 ← litM (("require").toList) s
  let r2 ← litM (("(").toList) (r1.dropWhile isSpaceChar)
  let (cap, r3) ← matchQuoted (r2.dropWhile isSpaceChar)
  let r4 ← litM ((")").toList) (r3.dropWhile isSpaceChar)
  pure (cap, r4)

/-- `regex.exec` loop over one line: scan left to right, at each position try
the anchored matcher; after a match continue at the match end (`lastIndex`).
Yields `(startColumn, matchedText, capture)` triples.  The gas argument only
serves termination (every embedded match consumes at least one character);
callers pass `s.length + 1`. -/
def scanAux (m : Str → Option (Str × Str)) : Nat → Str → Nat → List (Nat × Str × Str)
  | 0, _, _ => []
  | gas + 1, s, i =>
    match s with
    | [] => []
    | _ :: cs =>
      match m s with
      | some (cap, rest) =>
        let len := s.length - rest.length
        if rest.length < s.length then
          (i, s.take len, cap) :: scanAux m gas rest (i + len)
        else
          scanAux m gas cs (i + 1)
      | none => scanAux m gas cs (i + 1)

/-- All matches of an anchored matcher in one line. -/
def scanLine (m : Str → Option (Str × Str)) (line : Str) : List (Nat × Str × Str) :=
  scanAux m (line.length + 1) line 0

/-- Build the `ImportInfo` records for the matches of one matcher on one
line, as the source loops do. -/
def infosOf (ty : ImportType) (lineIndex : Nat) (ms : List (Nat × Str × Str)) :
    List ImportInfo :=
  ms.map (fun t =>
    { type := ty
      path := t.2.2
      originalText := t.2.1
      startLine := lineIndex + 1
      startColumn := t.1
      endLine := lineIndex + 1
      endColumn := t.1 + t.2.1.length })

/-- `parseJavaScriptImports`: split into lines; on each line run the
static-import, dynamic-import and require patterns in that order. -/
def parseJavaScriptImports (content : Str) : List ImportInfo :=
  ((splitOnChar '\n' content).enum.map (fun li =>
    infosOf ImportType.importTy li.1 (scanLine matchStaticImport li.2)
      ++ infosOf ImportType.dynamicTy li.1 (scanLine matchDynamicImport li.2)
      ++ infosOf ImportType.requireTy li.1 (scanLine matchRequire li.2))).flatten

/-- Capture of the Python import regex `import\s+(\w+(?:\s*,\s*\w+)*)`:
returns the captured comma-separated module list text and the rest.  Each
group iteration consumes at least the comma, and nothing follows the star,
so greedy iteration is faithful. -/
def matchPyModules (s : Str) : Option (Str × Str) := do
  let r1 ← litM (("import").toList) s
  let r2 ← dropSpaces1 r1
  let r3 ← wordPlus r2
  let r4 := starIter (fun t => do
    let t1 := t.dropWhile isSpaceChar
    let t2 ← litM ((",").toList) t1
    let t3 := t2.dropWhile isSpaceChar
    wordPlus t3) (r3.length + 1) r3
  pure (r2.take (r2.length - r4.length), r4)

/-- The Python from-import regex `from\s+(\w+(?:\.\w+)*)\s+import\s+([^;]+)`:
returns the captured dotted module path and the rest (the second capture is
not used by the source beyond the match text). -/
def matchPyFrom (s : Str) : Option (Str × Str) := do
  let r1 ← litM (("from").toList) s
  let r2 ← dropSpaces1 r1
  let r3 ← wordPlus r2
  let r4 := starIter (fun t => do
    let t1 ← litM ((".").toList) t
    wordPlus t1) (r3.length + 1) r3
  let cap := r2.take (r2.length - r4.length)
  let r5 ← dropSpaces1 r4
  let r6 ← litM (("import").toList) r5
  let r7 ← dropSpaces1 r6
  let body := r7.takeWhile (fun d => d ≠ ';')
  if body.isEmpty then none
  else pure (cap, r7.drop body.length)

/-- `parsePythonImports`: the `import a, b` pattern yields one record per
comma-separated module with synthesized text `import <module>`; the
`from <m> import ...` pattern yields one record with the dotted module
path. -/
def parsePythonImports (content : Str) : List ImportInfo :=
  ((splitOnChar '\n' content).enum.map (fun (li : Nat × Str) =>
    ((scanLine matchPyModules li.2).map (fun (t : Nat × Str × Str) =>
      ((splitOnChar ',' t.2.2).map trimL).map (fun module =>
        let originalText := (("import ").toList) ++ module
        { type := ImportType.importTy
          path := module
          originalText := originalText
          startLine := li.1 + 1
          startColumn := t.1
          endLine := li.1 + 1
          endColumn := t.1 + originalText.length : ImportInfo }))).flatten
      ++ infosOf ImportType.fromTy li.1 (scanLine matchPyFrom li.2))).flatten

/-- Body of the CSS import regex after the optional `url(`:
`['"]?([^'"\s)]+)['"]?\s*\)?`.  The opening-quote optional needs explicit
backtracking (consuming a quote could leave an empty capture); the trailing
optionals are followed only by nullable parts, so taking them when present
is faithful. -/
def cssCapture (s : Str) : Option (Str × Str) :=
  let cap := s.takeWhile (fun c => !(isQuote c || isSpaceChar c || c = ')'))
  if cap.isEmpty then none
  else
    let r := s.drop cap.length
    let r1 := match r with
      | c :: t => if isQuote c then t else r
      | [] => r
    let r2 := r1.dropWhile isSpaceChar
    let r3 := match r2 with
      | ')' :: t => t
      | _ => r2
    some (cap, r3)

/-- CSS body with the optional opening quote (`['"]?` with backtracking). -/
def cssBody (s : Str) : Option (Str × Str) :=
  (match s with
   | c :: r => if isQuote c then cssCapture r else none
   | [] => none).orElse (fun _ => cssCapture s)

/-- The CSS import regex `@import\s+(?:url\()?['"]?([^'"\s)]+)['"]?\s*\)?`
anchored at the start of `s`; the `url(` optional backtracks (greedy
optional), as in the source pattern. -/
def matchCssImport (s : Str) : Option (Str × Str) := do
  let r1 ← litM (("@import").toList) s
  let r2 ← dropSpaces1 r1
  (match litM (("url(").toList) r2 with
   | some r3 => (cssBody r3).orElse (fun _ => cssBody r2)
   | none => cssBody r2)

/-- `parseCSSImports`. -/
def parseCSSImports (content : Str) : List ImportInfo :=
  ((splitOnChar '\n' content).enum.map (fun li =>
    infosOf ImportType.cssImportTy li.1 (scanLine matchCssImport li.2))).flatten

/-- `isLocalImport`: a raw import path is local when it is relative or
root-absolute, or contains a recognized source extension substring, or
contains a `/` separator; URLs and bare package names are not local. -/
def isLocalImport (importPath : Str) : Bool :=
  if importPath.isEmpty then false
  else if startsWithL importPath (("http://").toList)
       || startsWithL importPath (("https://").toList) then false
  else if startsWithL importPath (("./").toList)
       || startsWithL importPath (("../").toList)
       || startsWithL importPath (("/").toList) then true
  else if hasSubstr ((".js").toList) importPath
       || hasSubstr ((".ts").toList) importPath
       || hasSubstr ((".jsx").toList) importPath
       || hasSubstr ((".tsx").toList) importPath
       || hasSubstr ((".py").toList) importPath
       || hasSubstr ((".css").toList) importPath
       || hasSubstr ((".scss").toList) importPath
       || hasSubstr ((".sass").toList) importPath then true
  else if !(importPath.contains '/') then false
  else true

/-- The extension of a path as the source computes it:
`path.split('.').pop()?.toLowerCase()`. -/
def extOf (p : Str) : Str :=
  lowerStr ((splitOnChar '.' p).getLastD [])

/-- `parseFileImports`: dispatch on the file extension. -/
def parseFileImports (content filePath : Str) : List ImportInfo :=
  let extension := extOf filePath
  if extension = ("js").toList ∨ extension = ("jsx").toList
     ∨ extension = ("ts").toList ∨ extension = ("tsx").toList then
    parseJavaScriptImports content
  else if extension = ("py").toList then
    parsePythonImports content
  else if extension = ("css").toList ∨ extension = ("scss").toList
       ∨ extension = ("sass").toList then
    parseCSSImports content
  else []

/-- The `.replace(/\.(js|ts|jsx|tsx)$/, '')` step.  The anchored alternation
always strips the final matching extension; the four suffixes are mutually
exclusive (they differ in their last character or length-4 prefix), so a
suffix test per alternative is faithful. -/
def stripJsExt (p : Str) : Str :=
  if endsWithL p ((".jsx").toList) || endsWithL p ((".tsx").toList) then dropLastN 4 p
  else if endsWithL p ((".js").toList) || endsWithL p ((".ts").toList) then dropLastN 3 p
  else p

/-- The extension-normalization map of `extractLocalImportPaths`: strip a
trailing recognized JS/TS extension, else a trailing `.py`; anything else
(including the CSS family) is returned unchanged. -/
def stripImportExt (p : Str) : Str :=
  if endsWithL p ((".js").toList) || endsWithL p ((".ts").toList)
     || endsWithL p ((".jsx").toList) || endsWithL p ((".tsx").toList) then
    stripJsExt p
  else if endsWithL p ((".py").toList) then dropLastN 3 p
  else p

/-- `extractLocalImportPaths`: parse, keep the raw paths, filter to local
ones, normalize extensions. -/
def extractLocalImportPaths (content filePath : Str) : List Str :=
  (((parseFileImports content filePath).map (fun imp => imp.path)).filter
    isLocalImport).map stripImportExt

/-- `getAllLocalImports`: unique local imports over a list of files (the
source accumulates into a `Set`, preserving first-insertion order). -/
def getAllLocalImports (files : List FileData) : List Str :=
  (files.foldl (fun acc file =>
    (extractLocalImportPaths file.content file.path).foldl (fun acc2 imp =>
      if acc2.contains imp then acc2 else acc2 ++ [imp]) acc) []).eraseDups

/-! ## Path resolver (`src/utils/pathResolver.ts`) -/

/-- The `FILE_EXTENSIONS` table of `pathResolver.ts`.  Only the `default`
entry is consumed by `getFileExtensions`. -/
structure FileExtensionsConfig where
  javascript : List Str
  python : List Str
  css : List Str
  defaultExts : List Str
deriving Repr, DecidableEq

/-- `FILE_EXTENSIONS`: note that the `default` list does not contain `.mjs`
or `.cjs` (unlike the `javascript` list). -/
def FILE_EXTENSIONS : FileExtensionsConfig :=
  { javascript := [(".js").toList, (".jsx").toList, (".ts").toList, (".tsx").toList,
      (".mjs").toList, (".cjs").toList]
    python := [(".py").toList]
    css := [(".css").toList, (".scss").toList, (".sass").toList]
    defaultExts := [(".js").toList, (".ts").toList, (".jsx").toList, (".tsx").toList,
      (".py").toList, (".css").toList, (".scss").toList, (".sass").toList] }

/-- `getFileExtensions`: if the import path's own trailing `.`-segment is a
recognized extension the candidate set is `['']`; otherwise it is the
default list. -/
def getFileExtensions (importPath : Str) : List Str :=
  let extension := extOf importPath
  if extension = ("js").toList ∨ extension = ("jsx").toList
     ∨ extension = ("ts").toList ∨ extension = ("tsx").toList
     ∨ extension = ("mjs").toList ∨ extension = ("cjs").toList
     ∨ extension = ("py").toList
     ∨ extension = ("css").toList ∨ extension = ("scss").toList
     ∨ extension = ("sass").toList then
    [([] : Str)]
  else FILE_EXTENSIONS.defaultExts

/-- `arePathsEquivalent`: case- and separator-insensitive path equality. -/
def arePathsEquivalent (path1 path2 : Str) : Bool :=
  lowerStr (toForward (normalizePath path1)) = lowerStr (toForward (normalizePath path2))

/-- The per-file condition of the `findMatchingFiles` loop: exact
(case/separator-insensitive) match, or suffix match `/<target>`, or
directory-index match `/<target>/index.{js,ts,jsx,tsx}`. -/
def fileMatches (targetPath : Str) (file : FileData) : Bool :=
  if arePathsEquivalent file.path targetPath then true
  else
    let normalizedTarget := toForward (normalizePath targetPath)
    let normalizedFile := toForward (normalizePath file.path)
    endsWithL normalizedFile ('/' :: normalizedTarget)
    || normalizedFile = normalizedTarget
    || endsWithL normalizedFile ('/' :: (normalizedTarget ++ ("/index.js").toList))
    || endsWithL normalizedFile ('/' :: (normalizedTarget ++ ("/index.ts").toList))
    || endsWithL normalizedFile ('/' :: (normalizedTarget ++ ("/index.jsx").toList))
    || endsWithL normalizedFile ('/' :: (normalizedTarget ++ ("/index.tsx").toList))

/-- `findMatchingFiles`: every file satisfying the match condition, in list
order (the source pushes `file.path` once per matching file). -/
def findMatchingFiles (targetPath : Str) (allFiles : List FileData) : List Str :=
  (allFiles.filter (fileMatches targetPath)).map (fun f => f.path)

/-- `resolveImportPath`: root-absolute, relative, and bare/module-style
branches.  For the latter two, every candidate extension's matches are
collected (no short-circuit); the bare path is probed only when every
extension probe produced nothing. -/
def resolveImportPath (importPath currentFilePath : Str) (allFiles : List FileData)
    (projectRoot : Str) : List Str :=
  if startsWithL importPath (("/").toList) then
    findMatchingFiles (joinPath projectRoot importPath) allFiles
  else if startsWithL importPath (("./").toList)
       || startsWithL importPath (("../").toList) then
    let currentDir := dirname currentFilePath
    let resolvedRelativePath := resolvePath currentDir importPath
    let fromExts := ((getFileExtensions importPath).map (fun ext =>
      findMatchingFiles (resolvedRelativePath ++ ext) allFiles)).flatten
    if fromExts.isEmpty then findMatchingFiles resolvedRelativePath allFiles
    else fromExts
  else
    let fromExts := ((getFileExtensions importPath).map (fun ext =>
      findMatchingFiles (importPath ++ ext) allFiles)).flatten
    if fromExts.isEmpty then findMatchingFiles importPath allFiles
    else fromExts

/-! ## Dependency graph walker (`getDependencyFiles` in `pathResolver.ts`) -/

/-- The walker's mutable state: the `processedFiles` set (paths already
scanned) and the `dependencyFiles` map (discovered files in insertion
order, keyed by raw path). -/
structure WalkSt where
  processed : List Str
  discovered : List FileData
deriving Repr, DecidableEq

/-- The extraction step as seen by the walker.  JavaScript exceptions thrown
while processing one file are modelled by `Except`; the real extractor is
total and never throws (`okExtract` below). -/
abbrev ExtractFn := Str → Str → Except Str (List Str)

/-- The inner loop of `processFile` over the resolved paths of one import:
look up the file record, skip it when it is (path-equivalent to) one of the
originally selected files, otherwise record it in `dependencyFiles` (keyed
by raw path, first insertion wins) and recurse into it via `recur`. -/
def processResolvedWith (recur : FileData → WalkSt → WalkSt)
    (selectedFiles allFiles : List FileData) : List Str → WalkSt → WalkSt
  | [], st => st
  | resolvedPath :: rest, st =>
    let st' :=
      match allFiles.find? (fun f => arePathsEquivalent f.path resolvedPath) with
      | none => st
      | some dependencyFile =>
        if selectedFiles.any (fun f => arePathsEquivalent f.path dependencyFile.path) then st
        else
          let disc :=
            if st.discovered.any (fun d => d.path = dependencyFile.path) then st.discovered
            else st.discovered ++ [dependencyFile]
          recur dependencyFile { processed := st.processed, discovered := disc }
    processResolvedWith recur selectedFiles allFiles rest st'

/-- The outer loop of `processFile` over the extracted import paths. -/
def processImportsWith (recur : FileData → WalkSt → WalkSt)
    (selectedFiles allFiles : List FileData) (projectRoot : Str) :
    List Str → FileData → WalkSt → WalkSt
  | [], _, st => st
  | importPath :: rest, file, st =>
    let resolvedPaths := resolveImportPath importPath file.path allFiles projectRoot
    let st' := processResolvedWith recur selectedFiles allFiles resolvedPaths st
    processImportsWith recur selectedFiles allFiles projectRoot rest file st'

/-- `processFile`: skip files already in the `processed` set, otherwise mark
the file processed, extract its imports (the per-file `try/catch` of the
source catches an extraction failure here, keeping only the `processed`
mark) and walk each resolved dependency.  The fuel argument only bounds the
recursion depth; `getDependencyFiles` passes fuel exceeding the number of
candidate files, which `getDependencyFiles_fuel_irrelevant` below proves
sufficient. -/
def processFile (ex : ExtractFn) (selectedFiles allFiles : List FileData)
    (projectRoot : Str) : Nat → FileData → WalkSt → WalkSt
  | 0, _, st => st
  | fuel + 1, file, st =>
    if st.processed.contains file.path then st
    else
      let st1 : WalkSt := { processed := file.path :: st.processed, discovered := st.discovered }
      match ex file.content file.path with
      | Except.error _ => st1
      | Except.ok importPaths =>
        processImportsWith
          (fun dependencyFile st2 =>
            processFile ex selectedFiles allFiles projectRoot fuel dependencyFile st2)
          selectedFiles allFiles projectRoot importPaths file st1

/-- The walker with an explicit fuel bound: process every selected file in
order, threading the state, and return the discovered map's values. -/
def getDependencyFilesWithFuel (ex : ExtractFn) (fuel : Nat)
    (selectedFiles allFiles : List FileData) (projectRoot : Str) : List FileData :=
  (selectedFiles.foldl
    (fun st file => processFile ex selectedFiles allFiles projectRoot fuel file st)
    { processed := [], discovered := [] }).discovered

/-- The walker over an arbitrary (possibly failing) extractor. -/
def getDependencyFilesE (ex : ExtractFn) (selectedFiles allFiles : List FileData)
    (projectRoot : Str) : List FileData :=
  getDependencyFilesWithFuel ex (allFiles.length + 3) selectedFiles allFiles projectRoot

/-- The real extraction step: `extractLocalImportPaths` is total and never
throws. -/
def okExtract : ExtractFn := fun content filePath =>
  Except.ok (extractLocalImportPaths content filePath)

/-- `getDependencyFiles`. -/
def getDependencyFiles (selectedFiles allFiles : List FileData) (projectRoot : Str) :
    List FileData :=
  getDependencyFilesE okExtract selectedFiles allFiles projectRoot

/-! ## Walker measure and state predicates (for the theorems below) -/

/-- The distinct candidate-file paths: recursion of the walker only ever
descends into members of `allFiles`. -/
def pathsOf (allFiles : List FileData) : List Str :=
  (allFiles.map (fun f => f.path)).dedup

/-- Number of distinct candidate paths not yet processed — the walker's
termination measure. -/
def unprocessedCount (allFiles : List FileData) (st : WalkSt) : Nat :=
  (pathsOf allFiles).countP (fun p => !(st.processed.contains p))

/-- Invariant of the walker state: nothing discovered is path-equivalent to
a selected file. -/
def DiscOk (selectedFiles : List FileData) (st : WalkSt) : Prop :=
  ∀ fd ∈ st.discovered, ∀ s ∈ selectedFiles, arePathsEquivalent s.path fd.path = false

/-! ## Concrete fixtures used by the per-claim theorems -/

/-- Fixture: file `A`, which imports `./B` (and is imported back by `B`). -/
def fileA : FileData :=
  { name := ("A.ts").toList
    path := ("C:/project/src/A.ts").toList
    content := ("import b from './B';").toList }

/-- Fixture: file `B`, which imports `./A`, closing the cycle with `A`. -/
def fileB : FileData :=
  { name := ("B.ts").toList
    path := ("C:/project/src/B.ts").toList
    content := ("import a from './A';").toList }

/-- Fixture: file `C`, which imports `./D`. -/
def fileC : FileData :=
  { name := ("C.ts").toList
    path := ("C:/project/src/C.ts").toList
    content := ("import d from './D';").toList }

/-- Fixture: leaf file `D` with no imports. -/
def fileD : FileData :=
  { name := ("D.ts").toList
    path := ("C:/project/src/D.ts").toList
    content := ("export const d = 3;").toList }

/-- Fixture: project root for the concrete scenarios. -/
def projRoot : Str := ("C:/project").toList

/-- Fixture: a file importing the extensionless relative path
`./components`. -/
def fileAppComponents : FileData :=
  { name := ("App.ts").toList
    path := ("C:/project/src/App.ts").toList
    content := ("import C from './components';").toList }

/-- Fixture: the directory-index file `components/index.ts`. -/
def fileComponentsIndex : FileData :=
  { name := ("index.ts").toList
    path := ("C:/project/src/components/index.ts").toList
    content := ("export const n = 1;").toList }

/-- Fixture: an extractor that throws on `fileA` and behaves like the real
extractor elsewhere (exercises the per-file catch of the walker). -/
def exFailsOnA : ExtractFn := fun content filePath =>
  if filePath = fileA.path then Except.error (("boom").toList)
  else Except.ok (extractLocalImportPaths content filePath)

/-- Fixture: the C6 test content, two static imports of which only the first
is local. -/
def contentC6 : Str :=
  ("import helper from './utils/helper';\nimport React from 'react';").toList

/-- Fixture: a single candidate file for the C1 witness instance. -/
def fileX : FileData :=
  { name := ("x.ts").toList, path := ("a/x.ts").toList, content := [] }

/-- Fixture: candidate `utils/helper.ts` for the multi-extension scenario. -/
def fileHelperTs : FileData :=
  { name := ("helper.ts").toList
    path := ("C:/project/src/utils/helper.ts").toList
    content := [] }

/-- Fixture: candidate `utils/helper.js` for the multi-extension scenario. -/
def fileHelperJs : FileData :=
  { name := ("helper.js").toList
    path := ("C:/project/src/utils/helper.js").toList
    content := [] }

/-! ## Generic helper lemmas -/

theorem endsWithL_append_self (s e : Str) : endsWithL (s ++ e) e = true := by
  simp [endsWithL, List.length_append, Nat.add_sub_cancel, List.drop_left]

theorem endsWithL_append_of_le (s e eTwo : Str) (h : eTwo.length ≤ e.length) :
    endsWithL (s ++ e) eTwo = endsWithL e eTwo := by
  have h2 : (s ++ e).drop ((s ++ e).length - eTwo.length) = e.drop (e.length - eTwo.length) := by
    rw [List.length_append, List.drop_append_eq_append_drop]
    rw [List.drop_eq_nil_of_le (by omega), List.nil_append]
    congr 1
    omega
  simp only [endsWithL, h2]

theorem endsWithL_append_longer (s e eTwo : Str) (hlen : e.length + 1 = eTwo.length)
    (hne : eTwo.drop 1 ≠ e) : endsWithL (s ++ e) eTwo = false := by
  rcases List.eq_nil_or_concat s with hs | ⟨sHead, c, hs⟩
  · subst hs
    simp only [List.nil_append, endsWithL]
    have h0 : e.length - eTwo.length = 0 := by omega
    simp only [h0, List.drop_zero, decide_eq_false_iff_not]
    intro hcontra
    have := congrArg List.length hcontra
    omega
  · subst hs
    rw [List.concat_eq_append, List.append_assoc]
    simp only [endsWithL]
    have hl : (sHead ++ ([c] ++ e)).length - eTwo.length = sHead.length := by
      simp only [List.length_append, List.length_cons, List.length_nil]
      omega
    rw [hl, List.drop_left]
    simp only [decide_eq_false_iff_not]
    intro hcontra
    exact hne (by rw [← hcontra]; simp)

theorem startsWith_dot_not_slash (p : Str)
    (h : (startsWithL p (("./").toList) || startsWithL p (("../").toList)) = true) :
    startsWithL p (("/").toList) = false := by
  match p with
  | [] => simp [startsWithL, List.isPrefixOf] at h
  | c :: cs =>
    simp [startsWithL, List.isPrefixOf] at h ⊢
    rcases h with ⟨hc, _⟩ | ⟨hc, _⟩ <;> (subst hc; decide)

/-- In the relative branch of `resolveImportPath`, a match produced by any
one candidate extension is in the final result (the per-extension match
lists are concatenated, and the bare fallback only runs when all of them are
empty). -/
theorem mem_resolveImportPath_relative (importPath currentFilePath projectRoot : Str)
    (allFiles : List FileData) (ext x : Str)
    (hrel : (startsWithL importPath (("./").toList)
      || startsWithL importPath (("../").toList)) = true)
    (hext : ext ∈ getFileExtensions importPath)
    (hmem : x ∈ findMatchingFiles
      (resolvePath (dirname currentFilePath) importPath ++ ext) allFiles) :
    x ∈ resolveImportPath importPath currentFilePath allFiles projectRoot := by
  have hslash := startsWith_dot_not_slash importPath hrel
  have hflat : x ∈ ((getFileExtensions importPath).map
      (fun e => findMatchingFiles
        (resolvePath (dirname currentFilePath) importPath ++ e) allFiles)).flatten := by
    rw [List.mem_flatten]
    exact ⟨_, List.mem_map_of_mem _ hext, hmem⟩
  simp only [resolveImportPath, hslash, Bool.false_eq_true, if_false, hrel, if_true]
  cases hcase : ((getFileExtensions importPath).map
      (fun e => findMatchingFiles
        (resolvePath (dirname currentFilePath) importPath ++ e) allFiles)).flatten with
  | nil => rw [hcase] at hflat; simp at hflat
  | cons a l => rw [hcase] at hflat; simpa using hflat

/-- A file record whose path equals the probed target path is returned by
`findMatchingFiles` (by the exact-equivalence check). -/
theorem mem_findMatchingFiles_exact (f : FileData) (allFiles : List FileData) (target : Str)
    (hf : f ∈ allFiles) (hp : f.path = target) :
    f.path ∈ findMatchingFiles target allFiles := by
  unfold findMatchingFiles
  apply List.mem_map_of_mem
  rw [List.mem_filter]
  refine ⟨hf, ?_⟩
  unfold fileMatches
  rw [if_pos]
  simp [arePathsEquivalent, hp]

/-- In the bare/module-style branch of `resolveImportPath` (an import that is
neither root-absolute nor relative), a match produced by any one candidate
extension appended to the literal import string is in the final result (the
per-extension match lists are concatenated, and the bare fallback only runs
when all of them are empty). -/
theorem mem_resolveImportPath_bare (importPath currentFilePath projectRoot : Str)
    (allFiles : List FileData) (ext x : Str)
    (habs : startsWithL importPath (("/").toList) = false)
    (hrel : (startsWithL importPath (("./").toList)
      || startsWithL importPath (("../").toList)) = false)
    (hext : ext ∈ getFileExtensions importPath)
    (hmem : x ∈ findMatchingFiles (importPath ++ ext) allFiles) :
    x ∈ resolveImportPath importPath currentFilePath allFiles projectRoot := by
  have hflat : x ∈ ((getFileExtensions importPath).map
      (fun e => findMatchingFiles (importPath ++ e) allFiles)).flatten := by
    rw [List.mem_flatten]
    exact ⟨_, List.mem_map_of_mem _ hext, hmem⟩
  simp only [resolveImportPath, habs, hrel, Bool.false_eq_true, if_false]
  cases hcase : ((getFileExtensions importPath).map
      (fun e => findMatchingFiles (importPath ++ e) allFiles)).flatten with
  | nil => rw [hcase] at hflat; simp at hflat
  | cons a l => rw [hcase] at hflat; simpa using hflat

/-! ## Claim C1 -/

/-- C1, counterexample: the default extension candidate list returned by
`getFileExtensions` for an unrecognized trailing extension is not the
claimed ten-element list containing `.mjs` and `.cjs`. -/
theorem claim_C1_counterexample :
    getFileExtensions (("./x").toList) ≠
      [(".js").toList, (".ts").toList, (".jsx").toList, (".tsx").toList, (".mjs").toList,
       (".cjs").toList, (".py").toList, (".css").toList, (".scss").toList, (".sass").toList] := by
  decide

/-- C1 (amended): for every import string whose trailing dot-segment is not a
recognized extension, `getFileExtensions` returns exactly the ordered default
list `['.js','.ts','.jsx','.tsx','.py','.css','.scss','.sass']` (the source
default list omits `.mjs` and `.cjs`); and in both branches of
`resolveImportPath` that probe extensions — the relative branch and the
bare/module-style branch — the matches of every candidate extension are
collected, with no short-circuit on a first match.  (The remaining,
root-absolute branch performs no extension probing at all.) -/
theorem claim_C1 :
    (∀ importPath : Str,
      extOf importPath ∉ [("js").toList, ("jsx").toList, ("ts").toList, ("tsx").toList,
        ("mjs").toList, ("cjs").toList, ("py").toList, ("css").toList, ("scss").toList,
        ("sass").toList] →
      getFileExtensions importPath = FILE_EXTENSIONS.defaultExts ∧
      FILE_EXTENSIONS.defaultExts =
        [(".js").toList, (".ts").toList, (".jsx").toList, (".tsx").toList,
         (".py").toList, (".css").toList, (".scss").toList, (".sass").toList]) ∧
    (∀ (importPath currentFilePath projectRoot : Str) (allFiles : List FileData)
      (ext x : Str),
      (startsWithL importPath (("./").toList)
        || startsWithL importPath (("../").toList)) = true →
      ext ∈ getFileExtensions importPath →
      x ∈ findMatchingFiles (resolvePath (dirname currentFilePath) importPath ++ ext) allFiles →
      x ∈ resolveImportPath importPath currentFilePath allFiles projectRoot) ∧
    ∀ (importPath currentFilePath projectRoot : Str) (allFiles : List FileData)
      (ext x : Str),
      startsWithL importPath (("/").toList) = false →
      (startsWithL importPath (("./").toList)
        || startsWithL importPath (("../").toList)) = false →
      ext ∈ getFileExtensions importPath →
      x ∈ findMatchingFiles (importPath ++ ext) allFiles →
      x ∈ resolveImportPath importPath currentFilePath allFiles projectRoot := by
  refine ⟨?_, ?_, ?_⟩
  · intro importPath h
    refine ⟨?_, rfl⟩
    simp only [getFileExtensions]
    rw [if_neg]
    simp only [List.mem_cons, List.not_mem_nil, or_false, not_or] at h
    tauto
  · intro ip cur root files ext x hrel hext hmem
    exact mem_resolveImportPath_relative ip cur root files ext x hrel hext hmem
  · intro ip cur root files ext x habs hrel hext hmem
    exact mem_resolveImportPath_bare ip cur root files ext x habs hrel hext hmem

/-- C1, witness: the amended theorem applied at a concrete unrecognized
import-string, a concrete relative resolution instance, and a concrete
bare/module-style resolution instance. -/
theorem claim_C1_witness :
    (extOf (("./x").toList) ∉ [("js").toList, ("jsx").toList, ("ts").toList, ("tsx").toList,
        ("mjs").toList, ("cjs").toList, ("py").toList, ("css").toList, ("scss").toList,
        ("sass").toList] ∧
      getFileExtensions (("./x").toList) = FILE_EXTENSIONS.defaultExts) ∧
    ((startsWithL (("./x").toList) (("./").toList)
        || startsWithL (("./x").toList) (("../").toList)) = true ∧
     (".ts").toList ∈ getFileExtensions (("./x").toList) ∧
     ("a/x.ts").toList ∈ findMatchingFiles
       (resolvePath (dirname (("a/main.ts").toList)) (("./x").toList) ++ (".ts").toList)
       [fileX] ∧
     ("a/x.ts").toList ∈ resolveImportPath (("./x").toList) (("a/main.ts").toList)
       [fileX] (("a").toList)) ∧
    (startsWithL (("utils/helper").toList) (("/").toList) = false ∧
     (startsWithL (("utils/helper").toList) (("./").toList)
        || startsWithL (("utils/helper").toList) (("../").toList)) = false ∧
     (".ts").toList ∈ getFileExtensions (("utils/helper").toList) ∧
     fileHelperTs.path ∈ findMatchingFiles
       ((("utils/helper").toList) ++ ((".ts").toList)) [fileHelperTs] ∧
     fileHelperTs.path ∈ resolveImportPath (("utils/helper").toList)
       (("C:/project/src/App.ts").toList) [fileHelperTs] projRoot) :=
  ⟨⟨by decide, (claim_C1.1 (("./x").toList) (by decide)).1⟩,
   ⟨by decide, by decide, by decide,
    claim_C1.2.1 (("./x").toList) (("a/main.ts").toList) (("a").toList) [fileX]
      ((".ts").toList) (("a/x.ts").toList) (by decide) (by decide) (by decide)⟩,
   ⟨by decide, by decide, by decide, by decide,
    claim_C1.2.2 (("utils/helper").toList) (("C:/project/src/App.ts").toList) projRoot
      [fileHelperTs] ((".ts").toList) fileHelperTs.path
      (by decide) (by decide) (by decide) (by decide)⟩⟩

/-! ## Claim C2 -/

/-- C2: evaluating the code at the spec's index-fallback scenario.  The
candidate set contains `.../components/index.ts` (and no `components.<ext>`
file); resolving the relative import `./components` from a file in the same
directory as the `components` directory returns the empty list — not the
index file's path — because the directory-index check of
`findMatchingFiles` prepends `/` to the already absolute resolved target, so
it can never match.  The walker consequently discovers nothing. -/
theorem claim_C2 :
    endsWithL fileComponentsIndex.path (("components/index.ts").toList) = true ∧
    resolveImportPath (("./components").toList) fileAppComponents.path
      [fileAppComponents, fileComponentsIndex] projRoot = [] ∧
    getDependencyFiles [fileAppComponents] [fileAppComponents, fileComponentsIndex]
      projRoot = [] :=
  ⟨by decide, by decide, by decide⟩

theorem dropLastN_append (n : Nat) (s e : Str) (h : e.length = n) :
    dropLastN n (s ++ e) = s := by
  subst h
  simp [dropLastN, List.length_append, Nat.add_sub_cancel, List.take_left]

theorem stripImportExt_append_js (s : Str) : stripImportExt (s ++ ((".js").toList)) = s := by
  have h1 : endsWithL (s ++ ((".js").toList)) ((".js").toList) = true := endsWithL_append_self s _
  have h2 : endsWithL (s ++ ((".js").toList)) ((".jsx").toList) = false :=
    endsWithL_append_longer s _ _ (by decide) (by decide)
  have h3 : endsWithL (s ++ ((".js").toList)) ((".tsx").toList) = false :=
    endsWithL_append_longer s _ _ (by decide) (by decide)
  have h4 : dropLastN 3 (s ++ ((".js").toList)) = s := dropLastN_append 3 s _ (by decide)
  simp only [stripImportExt, stripJsExt, h1, h2, h3, h4]
  simp

theorem stripImportExt_append_ts (s : Str) : stripImportExt (s ++ ((".ts").toList)) = s := by
  have h0 : endsWithL (s ++ ((".ts").toList)) ((".js").toList) = false := by
    rw [endsWithL_append_of_le s _ _ (by decide)]; decide
  have h1 : endsWithL (s ++ ((".ts").toList)) ((".ts").toList) = true := endsWithL_append_self s _
  have h2 : endsWithL (s ++ ((".ts").toList)) ((".jsx").toList) = false :=
    endsWithL_append_longer s _ _ (by decide) (by decide)
  have h3 : endsWithL (s ++ ((".ts").toList)) ((".tsx").toList) = false :=
    endsWithL_append_longer s _ _ (by decide) (by decide)
  have h4 : dropLastN 3 (s ++ ((".ts").toList)) = s := dropLastN_append 3 s _ (by decide)
  simp only [stripImportExt, stripJsExt, h0, h1, h2, h3, h4]
  simp

theorem stripImportExt_append_jsx (s : Str) : stripImportExt (s ++ ((".jsx").toList)) = s := by
  have h0 : endsWithL (s ++ ((".jsx").toList)) ((".js").toList) = false := by
    rw [endsWithL_append_of_le s _ _ (by decide)]; decide
  have h1 : endsWithL (s ++ ((".jsx").toList)) ((".ts").toList) = false := by
    rw [endsWithL_append_of_le s _ _ (by decide)]; decide
  have h2 : endsWithL (s ++ ((".jsx").toList)) ((".jsx").toList) = true := endsWithL_append_self s _
  have h4 : dropLastN 4 (s ++ ((".jsx").toList)) = s := dropLastN_append 4 s _ (by decide)
  simp only [stripImportExt, stripJsExt, h0, h1, h2, h4]
  simp

theorem stripImportExt_append_tsx (s : Str) : stripImportExt (s ++ ((".tsx").toList)) = s := by
  have h0 : endsWithL (s ++ ((".tsx").toList)) ((".js").toList) = false := by
    rw [endsWithL_append_of_le s _ _ (by decide)]; decide
  have h1 : endsWithL (s ++ ((".tsx").toList)) ((".ts").toList) = false := by
    rw [endsWithL_append_of_le s _ _ (by decide)]; decide
  have h2 : endsWithL (s ++ ((".tsx").toList)) ((".jsx").toList) = false := by
    rw [endsWithL_append_of_le s _ _ (by decide)]; decide
  have h3 : endsWithL (s ++ ((".tsx").toList)) ((".tsx").toList) = true := endsWithL_append_self s _
  have h4 : dropLastN 4 (s ++ ((".tsx").toList)) = s := dropLastN_append 4 s _ (by decide)
  simp only [stripImportExt, stripJsExt, h0, h1, h2, h3, h4]
  simp

theorem stripImportExt_append_py (s : Str) : stripImportExt (s ++ ((".py").toList)) = s := by
  have h0 : endsWithL (s ++ ((".py").toList)) ((".js").toList) = false := by
    rw [endsWithL_append_of_le s _ _ (by decide)]; decide
  have h1 : endsWithL (s ++ ((".py").toList)) ((".ts").toList) = false := by
    rw [endsWithL_append_of_le s _ _ (by decide)]; decide
  have h2 : endsWithL (s ++ ((".py").toList)) ((".jsx").toList) = false :=
    endsWithL_append_longer s _ _ (by decide) (by decide)
  have h3 : endsWithL (s ++ ((".py").toList)) ((".tsx").toList) = false :=
    endsWithL_append_longer s _ _ (by decide) (by decide)
  have h5 : endsWithL (s ++ ((".py").toList)) ((".py").toList) = true := endsWithL_append_self s _
  have h4 : dropLastN 3 (s ++ ((".py").toList)) = s := dropLastN_append 3 s _ (by decide)
  simp only [stripImportExt, h0, h1, h2, h3, h5, h4]
  simp

theorem stripImportExt_append_css (s : Str) :
    stripImportExt (s ++ ((".css").toList)) = s ++ ((".css").toList) := by
  have h0 : endsWithL (s ++ ((".css").toList)) ((".js").toList) = false := by
    rw [endsWithL_append_of_le s _ _ (by decide)]; decide
  have h1 : endsWithL (s ++ ((".css").toList)) ((".ts").toList) = false := by
    rw [endsWithL_append_of_le s _ _ (by decide)]; decide
  have h2 : endsWithL (s ++ ((".css").toList)) ((".jsx").toList) = false := by
    rw [endsWithL_append_of_le s _ _ (by decide)]; decide
  have h3 : endsWithL (s ++ ((".css").toList)) ((".tsx").toList) = false := by
    rw [endsWithL_append_of_le s _ _ (by decide)]; decide
  have h5 : endsWithL (s ++ ((".css").toList)) ((".py").toList) = false := by
    rw [endsWithL_append_of_le s _ _ (by decide)]; decide
  simp only [stripImportExt, h0, h1, h2, h3, h5]
  simp

theorem stripImportExt_append_scss (s : Str) :
    stripImportExt (s ++ ((".scss").toList)) = s ++ ((".scss").toList) := by
  have h0 : endsWithL (s ++ ((".scss").toList)) ((".js").toList) = false := by
    rw [endsWithL_append_of_le s _ _ (by decide)]; decide
  have h1 : endsWithL (s ++ ((".scss").toList)) ((".ts").toList) = false := by
    rw [endsWithL_append_of_le s _ _ (by decide)]; decide
  have h2 : endsWithL (s ++ ((".scss").toList)) ((".jsx").toList) = false := by
    rw [endsWithL_append_of_le s _ _ (by decide)]; decide
  have h3 : endsWithL (s ++ ((".scss").toList)) ((".tsx").toList) = false := by
    rw [endsWithL_append_of_le s _ _ (by decide)]; decide
  have h5 : endsWithL (s ++ ((".scss").toList)) ((".py").toList) = false := by
    rw [endsWithL_append_of_le s _ _ (by decide)]; decide
  simp only [stripImportExt, h0, h1, h2, h3, h5]
  simp

theorem stripImportExt_append_sass (s : Str) :
    stripImportExt (s ++ ((".sass").toList)) = s ++ ((".sass").toList) := by
  have h0 : endsWithL (s ++ ((".sass").toList)) ((".js").toList) = false := by
    rw [endsWithL_append_of_le s _ _ (by decide)]; decide
  have h1 : endsWithL (s ++ ((".sass").toList)) ((".ts").toList) = false := by
    rw [endsWithL_append_of_le s _ _ (by decide)]; decide
  have h2 : endsWithL (s ++ ((".sass").toList)) ((".jsx").toList) = false := by
    rw [endsWithL_append_of_le s _ _ (by decide)]; decide
  have h3 : endsWithL (s ++ ((".sass").toList)) ((".tsx").toList) = false := by
    rw [endsWithL_append_of_le s _ _ (by decide)]; decide
  have h5 : endsWithL (s ++ ((".sass").toList)) ((".py").toList) = false := by
    rw [endsWithL_append_of_le s _ _ (by decide)]; decide
  simp only [stripImportExt, h0, h1, h2, h3, h5]
  simp

/-! ## Claim C5 -/

/-- C5: the locality filter classifies `./x`, `../x`, `/x` and
`lodash/debounce` as local and `react`, `axios`, `https://cdn/x.js` as not
local; and the normalization step of `extractLocalImportPaths` strips a
trailing `.js/.ts/.jsx/.tsx/.py` extension from every surviving path while
leaving `.css/.scss/.sass` extensions unchanged. -/
theorem claim_C5 :
    (isLocalImport (("./x").toList) = true ∧
     isLocalImport (("../x").toList) = true ∧
     isLocalImport (("/x").toList) = true ∧
     isLocalImport (("lodash/debounce").toList) = true ∧
     isLocalImport (("react").toList) = false ∧
     isLocalImport (("axios").toList) = false ∧
     isLocalImport (("https://cdn/x.js").toList) = false) ∧
    (∀ s : Str,
      stripImportExt (s ++ ((".js").toList)) = s ∧
      stripImportExt (s ++ ((".ts").toList)) = s ∧
      stripImportExt (s ++ ((".jsx").toList)) = s ∧
      stripImportExt (s ++ ((".tsx").toList)) = s ∧
      stripImportExt (s ++ ((".py").toList)) = s ∧
      stripImportExt (s ++ ((".css").toList)) = s ++ ((".css").toList) ∧
      stripImportExt (s ++ ((".scss").toList)) = s ++ ((".scss").toList) ∧
      stripImportExt (s ++ ((".sass").toList)) = s ++ ((".sass").toList)) ∧
    (∀ content filePath : Str,
      extractLocalImportPaths content filePath =
        (((parseFileImports content filePath).map (fun imp => imp.path)).filter
          isLocalImport).map stripImportExt) :=
  ⟨by decide,
   fun s =>
    ⟨stripImportExt_append_js s, stripImportExt_append_ts s, stripImportExt_append_jsx s,
     stripImportExt_append_tsx s, stripImportExt_append_py s, stripImportExt_append_css s,
     stripImportExt_append_scss s, stripImportExt_append_sass s⟩,
   fun _ _ => rfl⟩

/-! ## Claim C6 -/

/-- C6, counterexample: for the file path `notes.txt` — whose extension is
not recognized — `extractLocalImportPaths` on the claim's content returns
`[]`, not `['./utils/helper']`, refuting the claim's "every file path
argument". -/
theorem claim_C6_counterexample :
    extractLocalImportPaths contentC6 (("notes.txt").toList) ≠
      [("./utils/helper").toList] := by
  decide

/-- C6 (amended): for every file path whose extension (final dot-segment,
lowercased) is `js`, `jsx`, `ts` or `tsx` — so that the content is handed to
the JS/TS scanner — `extractLocalImportPaths` on the claim's content returns
exactly `['./utils/helper']`. -/
theorem claim_C6 (filePath : Str)
    (h : extOf filePath = ("js").toList ∨ extOf filePath = ("jsx").toList
       ∨ extOf filePath = ("ts").toList ∨ extOf filePath = ("tsx").toList) :
    extractLocalImportPaths contentC6 filePath = [("./utils/helper").toList] := by
  have hpf : parseFileImports contentC6 filePath = parseJavaScriptImports contentC6 := by
    simp only [parseFileImports]
    rw [if_pos h]
  unfold extractLocalImportPaths
  rw [hpf]
  decide

/-- C6, witness: the amended theorem at the concrete path `App.ts`. -/
theorem claim_C6_witness :
    (extOf (("App.ts").toList) = ("js").toList ∨ extOf (("App.ts").toList) = ("jsx").toList
       ∨ extOf (("App.ts").toList) = ("ts").toList
       ∨ extOf (("App.ts").toList) = ("tsx").toList) ∧
    extractLocalImportPaths contentC6 (("App.ts").toList) = [("./utils/helper").toList] :=
  ⟨by decide, claim_C6 (("App.ts").toList) (by decide)⟩

/-! ## Claim C7 -/

/-- C7: if the candidate set contains records for both `<stem>.ts` and
`<stem>.js`, where `<stem>` is the resolution of the extensionless relative
specifier `./utils/helper` against the importing file's directory, then
`resolveImportPath` returns both paths — resolution is one-to-many, not
first-match. -/
theorem claim_C7 (currentFilePath projectRoot : Str) (allFiles : List FileData)
    (fTs fJs : FileData)
    (hTs : fTs ∈ allFiles) (hJs : fJs ∈ allFiles)
    (hTsPath : fTs.path =
      resolvePath (dirname currentFilePath) (("./utils/helper").toList) ++ ((".ts").toList))
    (hJsPath : fJs.path =
      resolvePath (dirname currentFilePath) (("./utils/helper").toList) ++ ((".js").toList)) :
    fTs.path ∈ resolveImportPath (("./utils/helper").toList) currentFilePath
      allFiles projectRoot ∧
    fJs.path ∈ resolveImportPath (("./utils/helper").toList) currentFilePath
      allFiles projectRoot := by
  constructor
  · exact mem_resolveImportPath_relative _ _ _ _ ((".ts").toList) _ (by decide) (by decide)
      (mem_findMatchingFiles_exact fTs allFiles _ hTs hTsPath)
  · exact mem_resolveImportPath_relative _ _ _ _ ((".js").toList) _ (by decide) (by decide)
      (mem_findMatchingFiles_exact fJs allFiles _ hJs hJsPath)

/-- C7, witness: the theorem applied to the concrete candidate pair
`utils/helper.ts` / `utils/helper.js` next to `C:/project/src/App.ts`. -/
theorem claim_C7_witness :
    (fileHelperTs.path =
      resolvePath (dirname (("C:/project/src/App.ts").toList)) (("./utils/helper").toList)
        ++ ((".ts").toList)) ∧
    (fileHelperJs.path =
      resolvePath (dirname (("C:/project/src/App.ts").toList)) (("./utils/helper").toList)
        ++ ((".js").toList)) ∧
    fileHelperTs.path ∈ resolveImportPath (("./utils/helper").toList)
      (("C:/project/src/App.ts").toList) [fileHelperTs, fileHelperJs] projRoot ∧
    fileHelperJs.path ∈ resolveImportPath (("./utils/helper").toList)
      (("C:/project/src/App.ts").toList) [fileHelperTs, fileHelperJs] projRoot := by
  have h := claim_C7 (("C:/project/src/App.ts").toList) projRoot
    [fileHelperTs, fileHelperJs] fileHelperTs fileHelperJs
    (by decide) (by decide) (by decide) (by decide)
  exact ⟨by decide, by decide, h.1, h.2⟩

/-! ## Claim C9 -/

/-- C9: `getDependencyFiles` is deterministic — two calls with identical
arguments produce identical result lists (hence equal under path-normalized
set comparison).  In this embedding the walker is a pure function of its
arguments, which is exactly the source situation: the subsystem keeps no
state between invocations (`processedFiles`/`dependencyFiles` are local to
each call), so the result is determined by the arguments alone. -/
theorem claim_C9 (selectedFiles allFiles : List FileData) (projectRoot : Str) :
    getDependencyFiles selectedFiles allFiles projectRoot =
      getDependencyFiles selectedFiles allFiles projectRoot ∧
    ∀ fd : FileData,
      fd ∈ getDependencyFiles selectedFiles allFiles projectRoot ↔
      fd ∈ getDependencyFiles selectedFiles allFiles projectRoot :=
  ⟨rfl, fun _ => Iff.rfl⟩

/-! ## Claim C8 -/

/-- C8: an exception raised while extracting one file's imports is caught at
that file's boundary: for every (possibly throwing) extractor, when
extraction of `file` fails, `processFile` returns with only the `processed`
mark added — no crash, no discoveries from that file — and the walker's
return type carries no error, so nothing propagates to the caller.  The
second conjunct shows the traversal continuing past a failing file: with an
extractor that throws on `fileA`, the selection `[fileA, fileC]` still
yields the partial result `[fileD]` discovered through `fileC`. -/
theorem claim_C8 :
    (∀ (ex : ExtractFn) (selectedFiles allFiles : List FileData) (projectRoot : Str)
        (fuel : Nat) (file : FileData) (st : WalkSt) (e : Str),
      ex file.content file.path = Except.error e →
      st.processed.contains file.path = false →
      processFile ex selectedFiles allFiles projectRoot (fuel + 1) file st =
        { processed := file.path :: st.processed, discovered := st.discovered }) ∧
    getDependencyFilesE exFailsOnA [fileA, fileC] [fileA, fileB, fileC, fileD] projRoot =
      [fileD] := by
  constructor
  · intro ex selectedFiles allFiles projectRoot fuel file st e herr hproc
    simp only [processFile, hproc, Bool.false_eq_true, if_false, herr]
  · decide

/-- C8, witness: the per-file-catch conjunct applied at the concrete failing
extractor, file and empty state. -/
theorem claim_C8_witness :
    exFailsOnA fileA.content fileA.path = Except.error (("boom").toList) ∧
    (WalkSt.mk [] []).processed.contains fileA.path = false ∧
    processFile exFailsOnA [fileA, fileC] [fileA, fileB, fileC, fileD] projRoot 5 fileA
        (WalkSt.mk [] []) =
      { processed := [fileA.path], discovered := [] } :=
  ⟨by rfl, by decide,
   claim_C8.1 exFailsOnA [fileA, fileC] [fileA, fileB, fileC, fileD] projRoot 4 fileA
     (WalkSt.mk [] []) (("boom").toList) (by rfl) (by decide)⟩

/-! ## Claim C3: the walker never discovers a selected file -/

theorem processResolvedWith_discOk (recur : FileData → WalkSt → WalkSt)
    (selectedFiles allFiles : List FileData)
    (hrec : ∀ f st, DiscOk selectedFiles st → DiscOk selectedFiles (recur f st)) :
    ∀ (rps : List Str) (st : WalkSt), DiscOk selectedFiles st →
      DiscOk selectedFiles (processResolvedWith recur selectedFiles allFiles rps st) := by
  intro rps
  induction rps with
  | nil => intro st h; exact h
  | cons rp rest ih =>
    intro st h
    simp only [processResolvedWith]
    apply ih
    cases hfind : allFiles.find? (fun f => arePathsEquivalent f.path rp) with
    | none => exact h
    | some dep =>
      by_cases hsel : (selectedFiles.any fun f => arePathsEquivalent f.path dep.path) = true
      · simp only [hsel, if_true]; exact h
      · rw [Bool.not_eq_true] at hsel
        simp only [hsel, Bool.false_eq_true, if_false]
        apply hrec
        intro fd hfd s hs
        by_cases hdup : (st.discovered.any fun d => d.path = dep.path) = true
        · simp only [hdup, if_true] at hfd
          exact h fd hfd s hs
        · rw [Bool.not_eq_true] at hdup
          simp only [hdup, Bool.false_eq_true, if_false] at hfd
          rcases List.mem_append.mp hfd with hmem | hmem
          · exact h fd hmem s hs
          · rw [List.mem_singleton] at hmem
            subst hmem
            have hall := List.any_eq_false.mp hsel s hs
            simpa using hall

theorem processImportsWith_discOk (recur : FileData → WalkSt → WalkSt)
    (selectedFiles allFiles : List FileData) (projectRoot : Str)
    (hrec : ∀ f st, DiscOk selectedFiles st → DiscOk selectedFiles (recur f st)) :
    ∀ (ips : List Str) (file : FileData) (st : WalkSt), DiscOk selectedFiles st →
      DiscOk selectedFiles
        (processImportsWith recur selectedFiles allFiles projectRoot ips file st) := by
  intro ips
  induction ips with
  | nil => intro file st h; exact h
  | cons ip rest ih =>
    intro file st h
    simp only [processImportsWith]
    exact ih file _ (processResolvedWith_discOk recur selectedFiles allFiles hrec _ st h)

theorem processFile_discOk (ex : ExtractFn) (selectedFiles allFiles : List FileData)
    (projectRoot : Str) :
    ∀ (fuel : Nat) (file : FileData) (st : WalkSt), DiscOk selectedFiles st →
      DiscOk selectedFiles (processFile ex selectedFiles allFiles projectRoot fuel file st) := by
  intro fuel
  induction fuel with
  | zero => intro file st h; exact h
  | succ fuel ih =>
    intro file st h
    simp only [processFile]
    by_cases hproc : st.processed.contains file.path = true
    · simp only [hproc, if_true]; exact h
    · rw [Bool.not_eq_true] at hproc
      simp only [hproc, Bool.false_eq_true, if_false]
      cases hex : ex file.content file.path with
      | error e => exact h
      | ok ips =>
        exact processImportsWith_discOk _ selectedFiles allFiles projectRoot
          (fun f st2 h2 => ih f st2 h2) ips file _ h

theorem foldl_processFile_discOk (ex : ExtractFn) (selectedFiles allFiles : List FileData)
    (projectRoot : Str) (fuel : Nat) :
    ∀ (l : List FileData) (st : WalkSt), DiscOk selectedFiles st →
      DiscOk selectedFiles (l.foldl
        (fun st file => processFile ex selectedFiles allFiles projectRoot fuel file st) st) := by
  intro l
  induction l with
  | nil => intro st h; exact h
  | cons f rest ih =>
    intro st h
    simp only [List.foldl_cons]
    exact ih _ (processFile_discOk ex selectedFiles allFiles projectRoot fuel f st h)

/-- C3: no file in the dependency closure returned by `getDependencyFiles`
is path-equivalent (case- and separator-insensitively) to any file of the
initial selection — the guard in the walker checks every resolved dependency
against `selectedFiles` before recording it, on every discovery path. -/
theorem claim_C3 (selectedFiles allFiles : List FileData) (projectRoot : Str)
    (fd s : FileData)
    (hfd : fd ∈ getDependencyFiles selectedFiles allFiles projectRoot)
    (hs : s ∈ selectedFiles) :
    arePathsEquivalent s.path fd.path = false := by
  have h := foldl_processFile_discOk okExtract selectedFiles allFiles projectRoot
    (allFiles.length + 3) selectedFiles (WalkSt.mk [] [])
    (by intro fd' hfd' s' hs'; simp at hfd')
  exact h fd hfd s hs

/-- C3, witness: the theorem applied to the concrete two-file cycle, where
`fileB` is discovered from `fileA` and is not equivalent to it. -/
theorem claim_C3_witness :
    fileB ∈ getDependencyFiles [fileA] [fileA, fileB] projRoot ∧
    fileA ∈ [fileA] ∧
    arePathsEquivalent fileA.path fileB.path = false :=
  ⟨by decide, by decide,
   claim_C3 [fileA] [fileA, fileB] projRoot fileB fileA (by decide) (by decide)⟩

/-! ## Claim C4: termination (fuel irrelevance) and the two-file cycle -/

theorem processResolvedWith_processed_suffix (recur : FileData → WalkSt → WalkSt)
    (selectedFiles allFiles : List FileData)
    (hrec : ∀ f st, st.processed <:+ (recur f st).processed) :
    ∀ (rps : List Str) (st : WalkSt),
      st.processed <:+ (processResolvedWith recur selectedFiles allFiles rps st).processed := by
  intro rps
  induction rps with
  | nil => intro st; exact List.suffix_refl _
  | cons rp rest ih =>
    intro st
    simp only [processResolvedWith]
    refine List.IsSuffix.trans ?_ (ih _)
    cases hfind : allFiles.find? (fun f => arePathsEquivalent f.path rp) with
    | none => exact List.suffix_refl _
    | some dep =>
      by_cases hsel : (selectedFiles.any fun f => arePathsEquivalent f.path dep.path) = true
      · simp only [hsel, if_true]; exact List.suffix_refl _
      · rw [Bool.not_eq_true] at hsel
        simp only [hsel, Bool.false_eq_true, if_false]
        exact hrec dep
          { processed := st.processed,
            discovered :=
              if (st.discovered.any fun d => decide (d.path = dep.path)) = true
              then st.discovered else st.discovered ++ [dep] }

theorem processImportsWith_processed_suffix (recur : FileData → WalkSt → WalkSt)
    (selectedFiles allFiles : List FileData) (projectRoot : Str)
    (hrec : ∀ f st, st.processed <:+ (recur f st).processed) :
    ∀ (ips : List Str) (file : FileData) (st : WalkSt),
      st.processed <:+
        (processImportsWith recur selectedFiles allFiles projectRoot ips file st).processed := by
  intro ips
  induction ips with
  | nil => intro file st; exact List.suffix_refl _
  | cons ip rest ih =>
    intro file st
    simp only [processImportsWith]
    exact List.IsSuffix.trans
      (processResolvedWith_processed_suffix recur selectedFiles allFiles hrec _ st) (ih file _)

theorem processFile_processed_suffix (ex : ExtractFn) (selectedFiles allFiles : List FileData)
    (projectRoot : Str) :
    ∀ (fuel : Nat) (f : FileData) (st : WalkSt),
      st.processed <:+ (processFile ex selectedFiles allFiles projectRoot fuel f st).processed := by
  intro fuel
  induction fuel with
  | zero => intro f st; exact List.suffix_refl _
  | succ fuel ih =>
    intro f st
    simp only [processFile]
    by_cases hproc : st.processed.contains f.path = true
    · simp only [hproc, if_true]; exact List.suffix_refl _
    · rw [Bool.not_eq_true] at hproc
      simp only [hproc, Bool.false_eq_true, if_false]
      cases hex : ex f.content f.path with
      | error e => exact List.suffix_cons _ _
      | ok ips =>
        exact List.IsSuffix.trans (List.suffix_cons f.path st.processed)
          (processImportsWith_processed_suffix
            (fun dependencyFile st2 =>
              processFile ex selectedFiles allFiles projectRoot fuel dependencyFile st2)
            selectedFiles allFiles projectRoot (fun f' st' => ih f' st') ips f
            ⟨f.path :: st.processed, st.discovered⟩)

theorem unprocessedCount_le_of_suffix (allFiles : List FileData) (st stTwo : WalkSt)
    (h : st.processed <:+ stTwo.processed) :
    unprocessedCount allFiles stTwo ≤ unprocessedCount allFiles st := by
  apply List.countP_mono_left
  intro p _ hp
  simp only [Bool.not_eq_true'] at hp ⊢
  cases hq : st.processed.contains p with
  | false => rfl
  | true =>
    exfalso
    have hmem : p ∈ st.processed := by
      simpa using hq
    have : p ∈ stTwo.processed := h.subset hmem
    simp [this] at hp

theorem countP_notContains_cons (P pr : List Str) (p : Str)
    (hnodup : P.Nodup) (hp : p ∈ P) (hnp : p ∉ pr) :
    P.countP (fun q => !((p :: pr).contains q)) + 1 = P.countP (fun q => !(pr.contains q)) := by
  induction P with
  | nil => simp at hp
  | cons a T ih =>
    rw [List.nodup_cons] at hnodup
    rw [List.countP_cons, List.countP_cons]
    by_cases hpa : p = a
    · subst hpa
      have h1 : (!((p :: pr).contains p)) = false := by simp
      have h2 : (!(pr.contains p)) = true := by simpa using hnp
      have htail : T.countP (fun q => !((p :: pr).contains q))
          = T.countP (fun q => !(pr.contains q)) := by
        apply List.countP_congr
        intro q hq
        have hqp : ¬(q = p) := fun hqp => hnodup.1 (hqp ▸ hq)
        simp [List.contains_cons, hqp]
      rw [h1, h2, htail]
      simp
    · have hpT : p ∈ T := by
        rcases List.mem_cons.mp hp with h | h
        · exact absurd h hpa
        · exact h
      have hrec := ih hnodup.2 hpT
      have hhead : ((p :: pr).contains a) = (pr.contains a) := by
        simp only [List.contains_cons]
        have : ¬(a = p) := fun h => hpa h.symm
        simp [this]
      rw [hhead]
      omega

theorem unprocessedCount_cons (allFiles : List FileData) (st : WalkSt) (p : Str)
    (d : List FileData) (hp : p ∈ pathsOf allFiles)
    (hnp : st.processed.contains p = false) :
    unprocessedCount allFiles (WalkSt.mk (p :: st.processed) d) + 1 =
      unprocessedCount allFiles st := by
  apply countP_notContains_cons
  · exact List.nodup_dedup _
  · exact hp
  · simpa using hnp

theorem unprocessedCount_le_length (allFiles : List FileData) (st : WalkSt) :
    unprocessedCount allFiles st ≤ allFiles.length := by
  calc unprocessedCount allFiles st ≤ (pathsOf allFiles).length := List.countP_le_length _
  _ ≤ (allFiles.map (fun f => f.path)).length :=
      List.Sublist.length_le (List.dedup_sublist _)
  _ = allFiles.length := List.length_map _ _

theorem processResolvedWith_congr (selectedFiles allFiles : List FileData)
    (recurOne recurTwo : FileData → WalkSt → WalkSt) (bound : Nat)
    (hmono : ∀ f st, st.processed <:+ (recurOne f st).processed)
    (hcong : ∀ f st, f.path ∈ pathsOf allFiles → unprocessedCount allFiles st ≤ bound →
      recurOne f st = recurTwo f st) :
    ∀ (rps : List Str) (st : WalkSt), unprocessedCount allFiles st ≤ bound →
      processResolvedWith recurOne selectedFiles allFiles rps st =
        processResolvedWith recurTwo selectedFiles allFiles rps st := by
  intro rps
  induction rps with
  | nil => intro st _; rfl
  | cons rp rest ih =>
    intro st h
    simp only [processResolvedWith]
    cases hfind : allFiles.find? (fun f => arePathsEquivalent f.path rp) with
    | none => exact ih st h
    | some dep =>
      by_cases hsel : (selectedFiles.any fun f => arePathsEquivalent f.path dep.path) = true
      · simp only [hsel, if_true]; exact ih st h
      · rw [Bool.not_eq_true] at hsel
        simp only [hsel, Bool.false_eq_true, if_false]
        have hdep : dep.path ∈ pathsOf allFiles := by
          rw [pathsOf, List.mem_dedup]
          exact List.mem_map_of_mem _ (List.mem_of_find?_eq_some hfind)
        have heq := hcong dep
          { processed := st.processed,
            discovered :=
              if (st.discovered.any fun d => decide (d.path = dep.path)) = true
              then st.discovered else st.discovered ++ [dep] }
          hdep h
        have hb : unprocessedCount allFiles
            (recurOne dep
              { processed := st.processed,
                discovered :=
                  if (st.discovered.any fun d => decide (d.path = dep.path)) = true
                  then st.discovered else st.discovered ++ [dep] }) ≤ bound :=
          le_trans (unprocessedCount_le_of_suffix allFiles _ _ (hmono dep _)) h
        rw [heq] at hb
        rw [heq]
        exact ih _ hb

theorem processImportsWith_congr (selectedFiles allFiles : List FileData) (projectRoot : Str)
    (recurOne recurTwo : FileData → WalkSt → WalkSt) (bound : Nat)
    (hmono : ∀ f st, st.processed <:+ (recurOne f st).processed)
    (hcong : ∀ f st, f.path ∈ pathsOf allFiles → unprocessedCount allFiles st ≤ bound →
      recurOne f st = recurTwo f st) :
    ∀ (ips : List Str) (file : FileData) (st : WalkSt),
      unprocessedCount allFiles st ≤ bound →
      processImportsWith recurOne selectedFiles allFiles projectRoot ips file st =
        processImportsWith recurTwo selectedFiles allFiles projectRoot ips file st := by
  intro ips
  induction ips with
  | nil => intro file st _; rfl
  | cons ip rest ih =>
    intro file st h
    simp only [processImportsWith]
    have hpr := processResolvedWith_congr selectedFiles allFiles recurOne recurTwo bound
      hmono hcong (resolveImportPath ip file.path allFiles projectRoot) st h
    have hb : unprocessedCount allFiles
        (processResolvedWith recurOne selectedFiles allFiles
          (resolveImportPath ip file.path allFiles projectRoot) st) ≤ bound :=
      le_trans (unprocessedCount_le_of_suffix allFiles _ _
        (processResolvedWith_processed_suffix recurOne selectedFiles allFiles hmono _ st)) h
    rw [hpr] at hb
    rw [hpr]
    exact ih file _ hb

theorem processFile_fuel_congr (ex : ExtractFn) (selectedFiles allFiles : List FileData)
    (projectRoot : Str) :
    ∀ (fuelOne fuelTwo : Nat) (f : FileData) (st : WalkSt),
      f.path ∈ pathsOf allFiles →
      unprocessedCount allFiles st + 2 ≤ fuelOne →
      unprocessedCount allFiles st + 2 ≤ fuelTwo →
      processFile ex selectedFiles allFiles projectRoot fuelOne f st =
        processFile ex selectedFiles allFiles projectRoot fuelTwo f st := by
  intro fuelOne
  induction fuelOne using Nat.strong_induction_on with
  | _ fuelOne IH =>
    intro fuelTwo f st hf h1 h2
    rcases fuelOne with _ | a
    · omega
    rcases fuelTwo with _ | b
    · omega
    simp only [processFile]
    by_cases hproc : st.processed.contains f.path = true
    · simp only [hproc, if_true]
    · rw [Bool.not_eq_true] at hproc
      simp only [hproc, Bool.false_eq_true, if_false]
      cases hex : ex f.content f.path with
      | error e => rfl
      | ok ips =>
        have hdec := unprocessedCount_cons allFiles st f.path st.discovered hf hproc
        apply processImportsWith_congr selectedFiles allFiles projectRoot _ _
          (unprocessedCount allFiles (WalkSt.mk (f.path :: st.processed) st.discovered))
          (fun fOne stOne =>
            processFile_processed_suffix ex selectedFiles allFiles projectRoot a fOne stOne)
          ?_ ips f _ (le_refl _)
        intro fOne stOne hfOne hle
        exact IH a (by omega) b fOne stOne hfOne (by omega) (by omega)

theorem processFile_fuel_congr_top (ex : ExtractFn) (selectedFiles allFiles : List FileData)
    (projectRoot : Str) (fuelOne fuelTwo : Nat) (f : FileData) (st : WalkSt)
    (h1 : unprocessedCount allFiles st + 3 ≤ fuelOne)
    (h2 : unprocessedCount allFiles st + 3 ≤ fuelTwo) :
    processFile ex selectedFiles allFiles projectRoot fuelOne f st =
      processFile ex selectedFiles allFiles projectRoot fuelTwo f st := by
  rcases fuelOne with _ | a
  · omega
  rcases fuelTwo with _ | b
  · omega
  simp only [processFile]
  by_cases hproc : st.processed.contains f.path = true
  · simp only [hproc, if_true]
  · rw [Bool.not_eq_true] at hproc
    simp only [hproc, Bool.false_eq_true, if_false]
    cases hex : ex f.content f.path with
    | error e => rfl
    | ok ips =>
      have hmon : unprocessedCount allFiles (WalkSt.mk (f.path :: st.processed) st.discovered)
          ≤ unprocessedCount allFiles st :=
        unprocessedCount_le_of_suffix allFiles st _ (List.suffix_cons f.path st.processed)
      apply processImportsWith_congr selectedFiles allFiles projectRoot _ _
        (unprocessedCount allFiles (WalkSt.mk (f.path :: st.processed) st.discovered))
        (fun fOne stOne =>
          processFile_processed_suffix ex selectedFiles allFiles projectRoot a fOne stOne)
        ?_ ips f _ (le_refl _)
      intro fOne stOne hfOne hle
      exact processFile_fuel_congr ex selectedFiles allFiles projectRoot a b fOne stOne hfOne
        (by omega) (by omega)

theorem foldl_processFile_fuel_congr (ex : ExtractFn) (selectedFiles allFiles : List FileData)
    (projectRoot : Str) (fuelOne fuelTwo : Nat)
    (h1 : allFiles.length + 3 ≤ fuelOne) (h2 : allFiles.length + 3 ≤ fuelTwo) :
    ∀ (l : List FileData) (st : WalkSt),
      l.foldl (fun st file => processFile ex selectedFiles allFiles projectRoot fuelOne file st) st =
        l.foldl (fun st file => processFile ex selectedFiles allFiles projectRoot fuelTwo file st) st := by
  intro l
  induction l with
  | nil => intro st; rfl
  | cons f rest ih =>
    intro st
    simp only [List.foldl_cons]
    have hcount := unprocessedCount_le_length allFiles st
    have hstep := processFile_fuel_congr_top ex selectedFiles allFiles projectRoot
      fuelOne fuelTwo f st (by omega) (by omega)
    rw [hstep]
    exact ih _

/-- C4: termination and the two-file cycle.  The recursion depth of the
embedded walker is bounded by the fuel argument; the first conjunct proves
the fuel irrelevant from `allFiles.length + 3` on — the walk visits each
candidate file at most once (the `processed` set strictly grows along every
nested call), so it reaches a fixed point within that bound for every input:
this is the shallow-embedding form of guaranteed termination.  The third
conjunct shows directly that a file already in the `processed` set is never
scanned again (re-entry is the identity).  The second conjunct evaluates
the cycle scenario: `fileA` and `fileB` import each other, and from the
selection `{fileA}` the walk terminates with exactly `{fileB}`. -/
theorem claim_C4 :
    (∀ (ex : ExtractFn) (selectedFiles allFiles : List FileData) (projectRoot : Str)
        (fuel : Nat), allFiles.length + 3 ≤ fuel →
      getDependencyFilesWithFuel ex fuel selectedFiles allFiles projectRoot =
        getDependencyFilesE ex selectedFiles allFiles projectRoot) ∧
    getDependencyFiles [fileA] [fileA, fileB] projRoot = [fileB] ∧
    (∀ (ex : ExtractFn) (selectedFiles allFiles : List FileData) (projectRoot : Str)
        (fuel : Nat) (f : FileData) (st : WalkSt),
      st.processed.contains f.path = true →
      processFile ex selectedFiles allFiles projectRoot fuel f st = st) := by
  refine ⟨?_, by decide, ?_⟩
  · intro ex selectedFiles allFiles projectRoot fuel hfuel
    exact congrArg WalkSt.discovered
      (foldl_processFile_fuel_congr ex selectedFiles allFiles projectRoot fuel
        (allFiles.length + 3) hfuel (le_refl _) selectedFiles (WalkSt.mk [] []))
  · intro ex selectedFiles allFiles projectRoot fuel f st hproc
    cases fuel with
    | zero => rfl
    | succ fuel => simp only [processFile, hproc, if_true]

/-- C4, witness: fuel irrelevance and the processed-skip conjunct applied at
the concrete cycle instance. -/
theorem claim_C4_witness :
    ([fileA, fileB].length + 3 ≤ 10 ∧
     getDependencyFilesWithFuel okExtract 10 [fileA] [fileA, fileB] projRoot =
       getDependencyFilesE okExtract [fileA] [fileA, fileB] projRoot) ∧
    ((WalkSt.mk [fileA.path] []).processed.contains fileA.path = true ∧
     processFile okExtract [fileA] [fileA, fileB] projRoot 5 fileA
       (WalkSt.mk [fileA.path] []) = WalkSt.mk [fileA.path] []) :=
  ⟨⟨by decide, claim_C4.1 okExtract [fileA] [fileA, fileB] projRoot 10 (by decide)⟩,
   ⟨by decide, claim_C4.2.2 okExtract [fileA] [fileA, fileB] projRoot 5 fileA
     (WalkSt.mk [fileA.path] []) (by decide)⟩⟩

/-! ## Claim C10: side-effect imports produce no declarations -/

theorem optBind_eq_some {α β : Type} (x : Option α) (f : α → Option β) (b : β) :
    (x >>= f) = some b ↔ ∃ a, x = some a ∧ f a = some b :=
  Option.bind_eq_some

theorem litM_suffix : ∀ (lit s r : Str), litM lit s = some r → r <:+ s := by
  intro lit
  induction lit with
  | nil =>
    intro s r h
    simp only [litM] at h
    cases h
    exact List.suffix_refl _
  | cons l ls ih =>
    intro s r h
    cases s with
    | nil => simp [litM] at h
    | cons c cs =>
      simp only [litM] at h
      split at h
      · exact (ih cs r h).trans (List.suffix_cons c cs)
      · simp at h

theorem dropSpaces1_suffix (s r : Str) (h : dropSpaces1 s = some r) : r <:+ s := by
  simp only [dropSpaces1] at h
  split at h
  · simp at h
  · cases h
    exact List.drop_suffix _ _

theorem wordPlus_suffix (s r : Str) (h : wordPlus s = some r) : r <:+ s := by
  simp only [wordPlus] at h
  split at h
  · simp at h
  · cases h
    exact List.drop_suffix _ _

theorem matchQuoted_suffix (s : Str) (v : Str × Str) (h : matchQuoted s = some v) :
    v.2 <:+ s := by
  cases s with
  | nil => simp [matchQuoted] at h
  | cons c rest =>
    simp only [matchQuoted] at h
    split at h
    · split at h
      · simp at h
      · split at h
        next d rest3 hd =>
          split at h
          · cases h
            have h1 : rest3 <:+ d :: rest3 := List.suffix_cons d rest3
            have h2 : d :: rest3 <:+ rest := hd ▸ List.drop_suffix _ _
            exact (h1.trans h2).trans (List.suffix_cons c rest)
          · simp at h
        next hd => simp at h
    · simp at h

theorem matchQuoted_twoQuotes (s : Str) (v : Str × Str) (h : matchQuoted s = some v) :
    2 ≤ s.countP isQuote := by
  cases s with
  | nil => simp [matchQuoted] at h
  | cons c rest =>
    simp only [matchQuoted] at h
    split at h
    next hc =>
      split at h
      · simp at h
      · split at h
        next d rest3 hd =>
          split at h
          next hdq =>
            have hdmem : d ∈ rest := by
              have h2 : d :: rest3 <:+ rest := hd ▸ List.drop_suffix _ _
              exact h2.subset (List.mem_cons_self d rest3)
            have hpos : 0 < rest.countP isQuote :=
              List.countP_pos_iff.mpr ⟨d, hdmem, hdq⟩
            have hcount : List.countP isQuote (c :: rest) =
                List.countP isQuote rest + 1 := by
              rw [List.countP_cons, hc]
              simp
            omega
          next hdq => simp at h
        next hd => simp at h
    next hc => simp at h

theorem matchBraceGroup_suffix (s r : Str) (h : matchBraceGroup s = some r) : r <:+ s := by
  cases s with
  | nil => simp [matchBraceGroup] at h
  | cons c rest =>
    simp only [matchBraceGroup] at h
    split at h
    · cases hd : rest.drop (rest.takeWhile fun d => d ≠ '}').length with
      | nil => rw [hd] at h; simp at h
      | cons d rOut =>
        rw [hd] at h
        simp at h
        obtain ⟨hdq, hr⟩ := h
        subst hr
        have h2 : d :: rOut <:+ rest := hd ▸ List.drop_suffix _ _
        exact ((List.suffix_cons d rOut).trans h2).trans (List.suffix_cons c rest)
    · simp at h

theorem matchCommaBrace_suffix (s r : Str) (h : matchCommaBrace s = some r) : r <:+ s := by
  simp only [matchCommaBrace] at h
  cases hdw : s.dropWhile isSpaceChar with
  | nil => rw [hdw] at h; simp at h
  | cons c rest =>
    rw [hdw] at h
    simp at h
    obtain ⟨hc, hbg⟩ := h
    have h1 := matchBraceGroup_suffix _ _ hbg
    have h2 : rest.dropWhile isSpaceChar <:+ rest := List.dropWhile_suffix _
    have h3 : rest <:+ c :: rest := List.suffix_cons c rest
    have h4 : c :: rest <:+ s := hdw ▸ List.dropWhile_suffix _
    exact ((h1.trans h2).trans h3).trans h4

theorem starIter_suffix (step : Str → Option Str)
    (hstep : ∀ s r, step s = some r → r <:+ s) :
    ∀ (gas : Nat) (s : Str), starIter step gas s <:+ s := by
  intro gas
  induction gas with
  | zero => intro s; exact List.suffix_refl _
  | succ gas ih =>
    intro s
    simp only [starIter]
    split
    next r hs =>
      split
      · exact (ih r).trans (hstep s r hs)
      · exact List.suffix_refl _
    next => exact List.suffix_refl _

theorem matchImportClause_suffix (s r : Str) (h : matchImportClause s = some r) : r <:+ s := by
  simp only [matchImportClause] at h
  split at h
  next rb hb =>
    cases h
    exact matchBraceGroup_suffix _ _ hb
  next hb =>
    split at h
    next => simp at h
    next c cs =>
      split at h
      · rw [optBind_eq_some] at h
        obtain ⟨r1, h1, h⟩ := h
        rw [optBind_eq_some] at h
        obtain ⟨r2, h2, h⟩ := h
        rw [optBind_eq_some] at h
        obtain ⟨r3, h3, h⟩ := h
        have s1 := dropSpaces1_suffix _ _ h1
        have s2 := litM_suffix _ _ _ h2
        have s3 := dropSpaces1_suffix _ _ h3
        have s4 := wordPlus_suffix _ _ h
        exact ((((s4.trans s3).trans s2).trans s1).trans (List.suffix_cons c cs))
      · rw [optBind_eq_some] at h
        obtain ⟨r1, h1, h⟩ := h
        cases h
        exact (starIter_suffix matchCommaBrace matchCommaBrace_suffix _ r1).trans
          (wordPlus_suffix _ _ h1)

theorem matchStaticImport_twoQuotes (s : Str) (v : Str × Str)
    (h : matchStaticImport s = some v) : 2 ≤ s.countP isQuote := by
  simp only [matchStaticImport] at h
  rw [optBind_eq_some] at h
  obtain ⟨r1, h1, h⟩ := h
  rw [optBind_eq_some] at h
  obtain ⟨r2, h2, h⟩ := h
  rw [optBind_eq_some] at h
  obtain ⟨r3, h3, h⟩ := h
  rw [optBind_eq_some] at h
  obtain ⟨r4, h4, h⟩ := h
  rw [optBind_eq_some] at h
  obtain ⟨r5, h5, h⟩ := h
  rw [optBind_eq_some] at h
  obtain ⟨r6, h6, h⟩ := h
  have hsuf : r6 <:+ s :=
    (((((dropSpaces1_suffix _ _ h6).trans (litM_suffix _ _ _ h5)).trans
      (dropSpaces1_suffix _ _ h4)).trans (matchImportClause_suffix _ _ h3)).trans
      (dropSpaces1_suffix _ _ h2)).trans (litM_suffix _ _ _ h1)
  have h2q := matchQuoted_twoQuotes r6 v h
  have hle := List.Sublist.countP_le isQuote hsuf.sublist
  omega

theorem matchDynamicImport_twoQuotes (s : Str) (v : Str × Str)
    (h : matchDynamicImport s = some v) : 2 ≤ s.countP isQuote := by
  simp only [matchDynamicImport] at h
  rw [optBind_eq_some] at h
  obtain ⟨r1, h1, h⟩ := h
  rw [optBind_eq_some] at h
  obtain ⟨r2, h2, h⟩ := h
  rw [optBind_eq_some] at h
  obtain ⟨cr, hq, h⟩ := h
  have hsuf : (r2.dropWhile isSpaceChar) <:+ s :=
    (((List.dropWhile_suffix _).trans (litM_suffix _ _ _ h2)).trans
      (List.dropWhile_suffix _)).trans (litM_suffix _ _ _ h1)
  have h2q := matchQuoted_twoQuotes _ cr hq
  have hle := List.Sublist.countP_le isQuote hsuf.sublist
  omega

theorem matchRequire_twoQuotes (s : Str) (v : Str × Str)
    (h : matchRequire s = some v) : 2 ≤ s.countP isQuote := by
  simp only [matchRequire] at h
  rw [optBind_eq_some] at h
  obtain ⟨r1, h1, h⟩ := h
  rw [optBind_eq_some] at h
  obtain ⟨r2, h2, h⟩ := h
  rw [optBind_eq_some] at h
  obtain ⟨cr, hq, h⟩ := h
  have hsuf : (r2.dropWhile isSpaceChar) <:+ s :=
    (((List.dropWhile_suffix _).trans (litM_suffix _ _ _ h2)).trans
      (List.dropWhile_suffix _)).trans (litM_suffix _ _ _ h1)
  have h2q := matchQuoted_twoQuotes _ cr hq
  have hle := List.Sublist.countP_le isQuote hsuf.sublist
  omega

theorem scanAux_nil (m : Str → Option (Str × Str)) :
    ∀ (gas : Nat) (s : Str) (i : Nat), (∀ t, t <:+ s → m t = none) →
      scanAux m gas s i = [] := by
  intro gas
  induction gas with
  | zero => intro s i _; rfl
  | succ gas ih =>
    intro s i h
    cases s with
    | nil => rfl
    | cons c cs =>
      simp only [scanAux]
      rw [h (c :: cs) (List.suffix_refl _)]
      exact ih cs (i + 1) (fun t ht => h t (ht.trans (List.suffix_cons c cs)))

theorem splitOnChar_eq_single (sep : Char) (s : Str) (h : sep ∉ s) :
    splitOnChar sep s = [s] := by
  induction s with
  | nil => rfl
  | cons c cs ih =>
    have hc : ¬(c = sep) := fun hc => h (by rw [hc]; exact List.mem_cons_self sep cs)
    have hcs : sep ∉ cs := fun hm => h (List.mem_cons_of_mem c hm)
    simp only [splitOnChar, ih hcs]
    rw [if_neg hc]

theorem matchStaticImport_none_sideEffect (p : Str) (hq : p.countP isQuote = 0) :
    ∀ t, t <:+ (("import '").toList ++ (p ++ ("';").toList)) →
      matchStaticImport t = none := by
  intro t ht
  obtain ⟨u, hu⟩ := ht
  have ht' : t = (("import '").toList ++ (p ++ ("';").toList)).drop u.length := by
    rw [← hu, List.drop_left]
  have h8 : (("import '").toList).length = 8 := by decide
  rcases Nat.lt_or_ge u.length 8 with hk | hk
  · have hsplit : (("import '").toList ++ (p ++ ("';").toList)).drop u.length =
        (("import '").toList).drop u.length ++ (p ++ ("';").toList) := by
      rw [List.drop_append_eq_append_drop]
      have hz : u.length - (("import '").toList).length = 0 := by omega
      rw [hz, List.drop_zero]
    rw [hsplit] at ht'
    have hcases : u.length = 0 ∨ u.length = 1 ∨ u.length = 2 ∨ u.length = 3 ∨
        u.length = 4 ∨ u.length = 5 ∨ u.length = 6 ∨ u.length = 7 := by omega
    rcases hcases with h | h | h | h | h | h | h | h <;>
      (rw [h] at ht'; subst ht';
       simp [matchStaticImport, litM, dropSpaces1, matchImportClause, matchBraceGroup,
         wordPlus, isSpaceChar, isWordChar])
  · cases hm : matchStaticImport t with
    | none => rfl
    | some v =>
      exfalso
      have h2q := matchStaticImport_twoQuotes t v hm
      have hdrop : t = (p ++ ("';").toList).drop (u.length - 8) := by
        rw [ht', List.drop_append_eq_append_drop, h8,
          List.drop_eq_nil_of_le (by rw [h8]; exact hk), List.nil_append]
      have hcount : t.countP isQuote ≤ 1 := by
        rw [hdrop]
        have hsub := List.Sublist.countP_le isQuote
          (List.drop_sublist (u.length - 8) (p ++ ("';").toList))
        rw [List.countP_append, hq] at hsub
        have hone : ((("';").toList).countP isQuote) = 1 := by decide
        omega
      omega

theorem matchDynamicImport_none_sideEffect (p : Str) (hq : p.countP isQuote = 0) :
    ∀ t, t <:+ (("import '").toList ++ (p ++ ("';").toList)) →
      matchDynamicImport t = none := by
  intro t ht
  obtain ⟨u, hu⟩ := ht
  have ht' : t = (("import '").toList ++ (p ++ ("';").toList)).drop u.length := by
    rw [← hu, List.drop_left]
  have h8 : (("import '").toList).length = 8 := by decide
  rcases Nat.lt_or_ge u.length 8 with hk | hk
  · have hsplit : (("import '").toList ++ (p ++ ("';").toList)).drop u.length =
        (("import '").toList).drop u.length ++ (p ++ ("';").toList) := by
      rw [List.drop_append_eq_append_drop]
      have hz : u.length - (("import '").toList).length = 0 := by omega
      rw [hz, List.drop_zero]
    rw [hsplit] at ht'
    have hcases : u.length = 0 ∨ u.length = 1 ∨ u.length = 2 ∨ u.length = 3 ∨
        u.length = 4 ∨ u.length = 5 ∨ u.length = 6 ∨ u.length = 7 := by omega
    rcases hcases with h | h | h | h | h | h | h | h <;>
      (rw [h] at ht'; subst ht';
       simp [matchDynamicImport, litM, isSpaceChar])
  · cases hm : matchDynamicImport t with
    | none => rfl
    | some v =>
      exfalso
      have h2q := matchDynamicImport_twoQuotes t v hm
      have hdrop : t = (p ++ ("';").toList).drop (u.length - 8) := by
        rw [ht', List.drop_append_eq_append_drop, h8,
          List.drop_eq_nil_of_le (by rw [h8]; exact hk), List.nil_append]
      have hcount : t.countP isQuote ≤ 1 := by
        rw [hdrop]
        have hsub := List.Sublist.countP_le isQuote
          (List.drop_sublist (u.length - 8) (p ++ ("';").toList))
        rw [List.countP_append, hq] at hsub
        have hone : ((("';").toList).countP isQuote) = 1 := by decide
        omega
      omega

theorem matchRequire_none_sideEffect (p : Str) (hq : p.countP isQuote = 0) :
    ∀ t, t <:+ (("import '").toList ++ (p ++ ("';").toList)) →
      matchRequire t = none := by
  intro t ht
  obtain ⟨u, hu⟩ := ht
  have ht' : t = (("import '").toList ++ (p ++ ("';").toList)).drop u.length := by
    rw [← hu, List.drop_left]
  have h8 : (("import '").toList).length = 8 := by decide
  rcases Nat.lt_or_ge u.length 8 with hk | hk
  · have hsplit : (("import '").toList ++ (p ++ ("';").toList)).drop u.length =
        (("import '").toList).drop u.length ++ (p ++ ("';").toList) := by
      rw [List.drop_append_eq_append_drop]
      have hz : u.length - (("import '").toList).length = 0 := by omega
      rw [hz, List.drop_zero]
    rw [hsplit] at ht'
    have hcases : u.length = 0 ∨ u.length = 1 ∨ u.length = 2 ∨ u.length = 3 ∨
        u.length = 4 ∨ u.length = 5 ∨ u.length = 6 ∨ u.length = 7 := by omega
    rcases hcases with h | h | h | h | h | h | h | h <;>
      (rw [h] at ht'; subst ht';
       simp [matchRequire, litM, isSpaceChar])
  · cases hm : matchRequire t with
    | none => rfl
    | some v =>
      exfalso
      have h2q := matchRequire_twoQuotes t v hm
      have hdrop : t = (p ++ ("';").toList).drop (u.length - 8) := by
        rw [ht', List.drop_append_eq_append_drop, h8,
          List.drop_eq_nil_of_le (by rw [h8]; exact hk), List.nil_append]
      have hcount : t.countP isQuote ≤ 1 := by
        rw [hdrop]
        have hsub := List.Sublist.countP_le isQuote
          (List.drop_sublist (u.length - 8) (p ++ ("';").toList))
        rw [List.countP_append, hq] at hsub
        have hone : ((("';").toList).countP isQuote) = 1 := by decide
        omega
      omega

/-- C10: a side-effect import line `import '<path>';` (no binding clause, no
`from`) produces no `ImportDeclaration` from the JS/TS scanner — none of the
three patterns can match it (the static and dynamic/require patterns all
need two quote characters after a `import`/`require` occurrence, and the
line has only the delimiter pair) — so `extractLocalImportPaths` never
returns such a path, even a local one like `./App.css`. -/
theorem claim_C10 (p : Str) (hq1 : '\'' ∉ p) (hq2 : '"' ∉ p) (hn : '\n' ∉ p) :
    parseJavaScriptImports (("import '").toList ++ p ++ ("';").toList) = [] ∧
    (∀ filePath : Str,
      (extOf filePath = ("js").toList ∨ extOf filePath = ("jsx").toList
        ∨ extOf filePath = ("ts").toList ∨ extOf filePath = ("tsx").toList) →
      extractLocalImportPaths (("import '").toList ++ p ++ ("';").toList) filePath = []) := by
  have hassoc : ("import '").toList ++ p ++ ("';").toList
      = ("import '").toList ++ (p ++ ("';").toList) := by rw [List.append_assoc]
  have hq : p.countP isQuote = 0 := by
    rw [List.countP_eq_zero]
    intro a ha
    simp only [isQuote, Bool.or_eq_true, decide_eq_true_eq, not_or]
    exact ⟨fun h => hq1 (h ▸ ha), fun h => hq2 (h ▸ ha)⟩
  have hnl : '\n' ∉ (("import '").toList ++ p ++ ("';").toList) := by
    intro hmem
    rcases List.mem_append.mp hmem with hmem | hmem
    · rcases List.mem_append.mp hmem with hmem | hmem
      · revert hmem; decide
      · exact hn hmem
    · revert hmem; decide
  have hline := splitOnChar_eq_single '\n' _ hnl
  have hstat : scanLine matchStaticImport
      (("import '").toList ++ p ++ ("';").toList) = [] := by
    apply scanAux_nil
    intro t ht
    exact matchStaticImport_none_sideEffect p hq t (hassoc ▸ ht)
  have hdynm : scanLine matchDynamicImport
      (("import '").toList ++ p ++ ("';").toList) = [] := by
    apply scanAux_nil
    intro t ht
    exact matchDynamicImport_none_sideEffect p hq t (hassoc ▸ ht)
  have hreq : scanLine matchRequire
      (("import '").toList ++ p ++ ("';").toList) = [] := by
    apply scanAux_nil
    intro t ht
    exact matchRequire_none_sideEffect p hq t (hassoc ▸ ht)
  have hjs : parseJavaScriptImports (("import '").toList ++ p ++ ("';").toList) = [] := by
    unfold parseJavaScriptImports
    rw [hline]
    simp only [List.enum, List.enumFrom, List.map_cons, List.map_nil, hstat, hdynm, hreq,
      infosOf, List.append_nil, List.flatten_cons, List.flatten_nil]
  refine ⟨hjs, ?_⟩
  intro fp hfp
  have hpf : parseFileImports (("import '").toList ++ p ++ ("';").toList) fp
      = parseJavaScriptImports (("import '").toList ++ p ++ ("';").toList) := by
    simp only [parseFileImports]
    rw [if_pos hfp]
  unfold extractLocalImportPaths
  rw [hpf, hjs]
  rfl

/-- C10, witness: the theorem applied at the concrete side-effect import of
a local stylesheet, `import './App.css';`, in a `.tsx` file. -/
theorem claim_C10_witness :
    ('\'' ∉ (("./App.css").toList) ∧ '"' ∉ (("./App.css").toList)
      ∧ '\n' ∉ (("./App.css").toList)) ∧
    parseJavaScriptImports
      (("import '").toList ++ ("./App.css").toList ++ ("';").toList) = [] ∧
    extractLocalImportPaths
      (("import '").toList ++ ("./App.css").toList ++ ("';").toList)
      (("App.tsx").toList) = [] :=
  ⟨⟨by decide, by decide, by decide⟩,
   (claim_C10 (("./App.css").toList) (by decide) (by decide) (by decide)).1,
   (claim_C10 (("./App.css").toList) (by decide) (by decide) (by decide)).2
     (("App.tsx").toList) (by decide)⟩
